import Mathlib

/-!
# Top-N frequent words: a shallow embedding of `src/main.go`

The Go program counts the words of a text (`WordCount`), loads the counts into a
binary max-heap (`GetFrequencyMap`, through `container/heap`) and pops the ten most
frequent entries (`PrintTopNFrequentWords`).

Modelling conventions.

* A Go `string` is a Lean `String`; the regular expressions of the program work on
  the decoded runes, here the list `String.data`.
* Go `int` is `Int`. No arithmetic of the program can overflow: every count is
  bounded by the number of tokens of the text.
* A slice `[]*Item` is a `List Item`; the pointer structure is not observable by the
  functions modelled (each item is referenced from exactly one slot of one queue).
* The iteration order of a Go `map` is unspecified. A map is an association list with
  distinct keys and `range` over a map is a parameter `rng` that returns the entries
  in some order (a permutation).
* A run-time panic (index out of range) is `none`.
* The text is valid UTF-8. (Go's `regexp` reads an invalid byte as the rune U+FFFD,
  which is neither a word rune nor white space.)
-/

set_option autoImplicit false

/-! ## Runes and the regular expressions of `WordCount` -/

/-- The class `\w` of Go's `regexp` (RE2 syntax): `[0-9A-Za-z_]`, ASCII only. -/
def isWordRune (c : Char) : Bool :=
  (decide (48 ≤ c.toNat) && decide (c.toNat ≤ 57))
    || (decide (65 ≤ c.toNat) && decide (c.toNat ≤ 90))
    || decide (c.toNat = 95)
    || (decide (97 ≤ c.toNat) && decide (c.toNat ≤ 122))

/-- The class `\s` of Go's `regexp` (RE2 syntax): `[\t\n\f\r ]`. -/
def isSpaceRune (c : Char) : Bool :=
  decide (c.toNat = 9) || decide (c.toNat = 10) || decide (c.toNat = 12)
    || decide (c.toNat = 13) || decide (c.toNat = 32)

/-- The class `[^\w\s]`: neither a word rune nor white space. -/
def isPunctRune (c : Char) : Bool :=
  !isWordRune c && !isSpaceRune c

/-- An ASCII upper-case letter `A`..`Z`. -/
def isUpperRune (c : Char) : Bool :=
  decide (65 ≤ c.toNat) && decide (c.toNat ≤ 90)

/-- Lower-casing of one rune, as `strings.ToLower` does it on an ASCII string:
`A`..`Z` are moved by `'a' - 'A'`, every other rune is kept. -/
def toLowerRune (c : Char) : Char :=
  if 65 ≤ c.toNat ∧ c.toNat ≤ 90 then Char.ofNat (c.toNat + 32) else c

/-- Models `regexp.FindAllString` for the pattern `\w+|[^\w\s]+` on a list of runes.
At a word rune the first alternative matches the longest run of word runes (`+` is
greedy); at a rune that is neither word nor space the second alternative matches the
longest run of such runes; at white space nothing matches and the scan moves on by
one rune. The search resumes where the previous match ended. The first argument
bounds the number of scan steps. -/
def findAllWordPunct : Nat → List Char → List (List Char)
  | 0, _ => []
  | _ + 1, [] => []
  | fuel + 1, c :: cs =>
    if isWordRune c then
      (c :: cs.takeWhile isWordRune) :: findAllWordPunct fuel (cs.dropWhile isWordRune)
    else if isPunctRune c then
      (c :: cs.takeWhile isPunctRune) :: findAllWordPunct fuel (cs.dropWhile isPunctRune)
    else
      findAllWordPunct fuel cs

/-- Modelled from the spec: the tokenizer `tokenize.NewWordPunctTokenizer()` of the
external package `github.com/jdkato/prose/tokenize`, which is not part of `src/`.
The spec describes it as word-boundary segmentation that separates alphanumeric runs
from punctuation and white space; the package implements it as
`regexp.FindAllString` with the pattern `\w+|[^\w\s]+`. Every step of the scan
consumes a rune, so the length of the text is enough fuel
(`findAllWordPunct_fuel`). -/
def Tokenize (s : String) : List String :=
  (findAllWordPunct s.data.length s.data).map String.mk

/-- Models `r.MatchString(word)` for `r = regexp.Compile("\\W")` (`main.go`, line 74 and 80):
some rune of the word is not a word rune. -/
def MatchNonWord (word : String) : Bool :=
  word.data.any fun c => !isWordRune c

/-- A text with every ASCII upper-case letter replaced by its lower-case letter. -/
def asciiLower (s : String) : String :=
  String.mk (s.data.map toLowerRune)

/-- Models `strings.ToLower`. `WordCount` applies it only to tokens that passed the `\W`
filter, which are ASCII; on an ASCII string Go lower-cases `A`..`Z` and keeps the
rest. -/
def ToLower (word : String) : String :=
  asciiLower word

/-! ## The word-count map -/

/-- A Go `map[string]int` as an association list with distinct keys. -/
abbrev CountMap := List (String × Int)

/-- Models `counts[key]++`: a missing key reads as the zero value `0` and is stored as `1`. -/
def CountMap.incr : CountMap → String → CountMap
  | [], key => [(key, 1)]
  | (k, c) :: rest, key =>
    if k = key then (k, c + 1) :: rest else (k, c) :: CountMap.incr rest key

/-- The body of the `for _, word := range words` loop of `WordCount`
(`main.go`, lines 79-83), as a left fold over the tokens. -/
def countWords (counts : CountMap) (words : List String) : CountMap :=
  words.foldl (fun m word => if !MatchNonWord word then m.incr (ToLower word) else m) counts

/-- Models `WordCount` (`main.go`, lines 72-85). -/
def WordCount (s : String) : CountMap :=
  countWords [] (Tokenize s)

/-! ## Items and the priority queue (`main.go`, lines 23-61) -/

/-- An `Item` of the priority queue (`main.go`, lines 24-29). -/
structure Item where
  value : String
  priority : Int
  index : Int
  deriving DecidableEq, Repr

/-- The type `PriorityQueue []*Item`. -/
abbrev PriorityQueue := List Item

namespace PriorityQueue

/-- Models `Len` (`main.go`, line 34). -/
def Len (pq : PriorityQueue) : Nat := pq.length

/-- Models `Less` (`main.go`, lines 36-39): greater-than on priorities, so that the heap is
a max-heap. An index out of range is a panic in Go; `container/heap` only passes
indices below the length and the model answers `false` outside. -/
def Less (pq : PriorityQueue) (i j : Nat) : Bool :=
  match pq[i]?, pq[j]? with
  | some a, some b => decide (a.priority > b.priority)
  | _, _ => false

/-- Models `Swap` (`main.go`, lines 41-45): exchanges two slots and records in each item its
new position. An index out of range is a panic in Go; `container/heap` only passes
indices below the length and the model leaves the queue unchanged outside. -/
def Swap (pq : PriorityQueue) (i j : Nat) : PriorityQueue :=
  match pq[i]?, pq[j]? with
  | some a, some b =>
    (pq.set i { b with index := (i : Int) }).set j { a with index := (j : Int) }
  | _, _ => pq

/-- Models `Push` (`main.go`, lines 47-52). -/
def Push (pq : PriorityQueue) (item : Item) : PriorityQueue :=
  pq ++ [{ item with index := (pq.length : Int) }]

/-- Models `Pop` (`main.go`, lines 54-61): removes the last slot and returns its item with
`index = -1`. On the empty queue `old[n-1]` is out of range: `none`. -/
def Pop (pq : PriorityQueue) : Option (Item × PriorityQueue) :=
  match pq.getLast? with
  | none => none
  | some item => some ({ item with index := -1 }, pq.dropLast)

end PriorityQueue

/-! ## `container/heap` -/

namespace heap

/-- The loop of `heap.down(h, i0, n)` of Go's `container/heap`, from position `i`:
```
j1 := 2*i + 1
if j1 >= n || j1 < 0 { break }
j := j1
if j2 := j1 + 1; j2 < n && h.Less(j2, j1) { j = j2 }
if !h.Less(j, i) { break }
h.Swap(i, j); i = j
```
The first argument bounds the number of iterations; `i` at least doubles at each
iteration, so `n` iterations are enough. The boolean result of `down` is unused by
`Init` and `Pop` and is left out. -/
def downLoop : Nat → PriorityQueue → Nat → Nat → PriorityQueue
  | 0, pq, _, _ => pq
  | fuel + 1, pq, i, n =>
    let j1 := 2 * i + 1
    if n ≤ j1 then pq
    else
      let j := if j1 + 1 < n ∧ pq.Less (j1 + 1) j1 = true then j1 + 1 else j1
      if pq.Less j i = true then downLoop fuel (pq.Swap i j) j n
      else pq

/-- Models `heap.down(h, i0, n)`. -/
def down (pq : PriorityQueue) (i0 n : Nat) : PriorityQueue :=
  downLoop n pq i0 n

/-- The loop `for i := n/2 - 1; i >= 0; i-- { down(h, i, n) }` of `heap.Init`, with
`k = i + 1` iterations left. -/
def initLoop : Nat → PriorityQueue → Nat → PriorityQueue
  | 0, pq, _ => pq
  | k + 1, pq, n => initLoop k (down pq k n) n

/-- Models `heap.Init(h)`. -/
def Init (pq : PriorityQueue) : PriorityQueue :=
  initLoop (pq.Len / 2) pq pq.Len

/-- Models `heap.Pop(h)`: `n := h.Len() - 1; h.Swap(0, n); down(h, 0, n); return h.Pop()`.
On the empty queue `h.Swap(0, -1)` is out of range: `none`. -/
def Pop (pq : PriorityQueue) : Option (Item × PriorityQueue) :=
  if pq.Len = 0 then none
  else
    let n := pq.Len - 1
    PriorityQueue.Pop (down (pq.Swap 0 n) 0 n)

end heap

/-! ## `GetFrequencyMap` and `PrintTopNFrequentWords` -/

/-- The loop that fills the queue (`main.go`, lines 94-102): the `i`-th entry visited
becomes the item of slot `i`. -/
def fillQueue : List (String × Int) → Nat → PriorityQueue
  | [], _ => []
  | (value, priority) :: rest, i =>
    { value := value, priority := priority, index := (i : Int) } :: fillQueue rest (i + 1)

/-- Models `GetFrequencyMap` (`main.go`, lines 87-107). `rng` is the order in which
`range items` visits the entries of the map. -/
def GetFrequencyMap (rng : CountMap → List (String × Int)) (content : String) :
    PriorityQueue :=
  let items := WordCount content
  heap.Init (fillQueue (rng items) 0)

/-- Models `strconv.Itoa` on a non-negative number. -/
def Itoa (k : Nat) : String := Nat.repr k

/-- The verb `%.2d` of `fmt.Printf`: the decimal digits, padded with zeros on the left
to at least two digits, after the sign. -/
def fmtD2 (k : Int) : String :=
  let digits := Nat.repr k.natAbs
  let padded := if digits.length < 2 then "0" ++ digits else digits
  if k < 0 then "-" ++ padded else padded

/-- What a run of `PrintTopNFrequentWords` did: the notice written by `fmt.Println`
(if any) and the items returned by `heap.Pop`, in the order of the loop. -/
structure Printed where
  notice : Option String
  items : List Item
  deriving DecidableEq, Repr

/-- The text written to standard output: the notice line, then
`fmt.Printf("%.2d:%s ", item.priority, item.value)` for each item. -/
def Printed.stdout (p : Printed) : String :=
  (match p.notice with
    | some line => line ++ "\n"
    | none => "")
  ++ String.join (p.items.map fun item => fmtD2 item.priority ++ ":" ++ item.value ++ " ")

/-- The loop `for i := 0; i < nFromList; i++ { item := heap.Pop(&pq) ... }`
(`main.go`, lines 119-122), with `k` iterations left: the popped items in order and
the queue that remains. -/
def popLoop : Nat → PriorityQueue → Option (List Item × PriorityQueue)
  | 0, pq => some ([], pq)
  | k + 1, pq =>
    match heap.Pop pq with
    | none => none
    | some (item, rest) =>
      match popLoop k rest with
      | none => none
      | some (items, final) => some (item :: items, final)

/-- Models `PrintTopNFrequentWords` (`main.go`, lines 109-123). The parameter `n` is not
read by the body; `nFromList` starts at the constant `10`. -/
def PrintTopNFrequentWords (_n : Nat) (pq : PriorityQueue) : Option Printed :=
  let nFromList := 10
  let short := decide (pq.Len < nFromList)
  let notice :=
    if short then
      some ("There are less words than " ++ Itoa nFromList ++ " retrieving "
        ++ Itoa pq.Len ++ " instead.")
    else none
  let nFromList := if short then pq.Len else nFromList
  match popLoop nFromList pq with
  | none => none
  | some (items, _) => some { notice := notice, items := items }

/-- The `(word, count)` entry carried by an item. -/
def Item.entry (item : Item) : String × Int := (item.value, item.priority)

/-- The entries that a run extracted, in extraction order. -/
def Printed.entries (p : Printed) : List (String × Int) := p.items.map Item.entry

/-! ## Specification vocabulary -/

/-- The priority stored at slot `k` (`0` outside the queue). -/
def prio (pq : PriorityQueue) (k : Nat) : Int :=
  match pq[k]? with
  | some a => a.priority
  | none => 0

/-- The max-heap condition at parent slot `k` among the first `n` slots: both
children `2k+1` and `2k+2`, when below `n`, have a priority at most that of `k`. -/
def HeapAt (pq : PriorityQueue) (n k : Nat) : Prop :=
  (2 * k + 1 < n → prio pq (2 * k + 1) ≤ prio pq k)
    ∧ (2 * k + 2 < n → prio pq (2 * k + 2) ≤ prio pq k)

/-- The max-heap property of the whole queue. -/
def IsHeap (pq : PriorityQueue) : Prop :=
  ∀ k, HeapAt pq pq.length k

/-- The qualifying tokens of a text: the tokens produced by the tokenizer that contain
no non-word character, in order of occurrence. -/
def qualifying (s : String) : List String :=
  (Tokenize s).filter fun word => !MatchNonWord word

/-- The lower-cased qualifying tokens of a text, in order of occurrence. -/
def loweredWords (s : String) : List String :=
  (qualifying s).map ToLower

/-- The keys of a map. -/
def CountMap.keys (m : CountMap) : List String := m.map Prod.fst

/-- The read `counts[key]` of Go: the stored value, or the zero value `0` when the key
is missing. -/
def CountMap.get (m : CountMap) (key : String) : Int :=
  match m with
  | [] => 0
  | (k, c) :: rest => if k = key then c else CountMap.get rest key

/-- The sum of all values of a map. -/
def CountMap.total (m : CountMap) : Int := (m.map Prod.snd).sum

/-- The max-heap property as the spec words it: at every slot `i > 0` the priority of
the parent slot `(i - 1) / 2` is at least the priority at `i`. -/
def IsMaxHeap (pq : PriorityQueue) : Prop :=
  ∀ i, 0 < i → i < pq.length → prio pq i ≤ prio pq ((i - 1) / 2)

/-- The queues on which the loop of `PrintTopNFrequentWords` calls `heap.Pop`, one per
iteration reached, in order (`k` iterations left). -/
def popLoopQueues : Nat → PriorityQueue → List PriorityQueue
  | 0, _ => []
  | k + 1, pq =>
    pq :: (match heap.Pop pq with
      | none => []
      | some (_, rest) => popLoopQueues k rest)

/-- The words of the entries that a run extracted, in extraction order. -/
def Printed.words (p : Printed) : List String := p.entries.map Prod.fst

/-- The counts of the entries that a run extracted, in extraction order. -/
def Printed.counts (p : Printed) : List Int := p.entries.map Prod.snd

/-- A string of digits padded with zeros on the left to at least `width` characters;
a string that is already that long is kept whole. -/
def zeroPadLeft (width : Nat) (digits : String) : String :=
  String.mk (List.replicate (width - digits.length) '0') ++ digits

/-- The rendering of an extracted entry as the spec words it: the decimal count padded
with zeros on the left to at least 2 digits, then `:`, the word and one space. -/
def renderEntry (e : String × Int) : String :=
  zeroPadLeft 2 (Nat.repr e.2.toNat) ++ ":" ++ e.1 ++ " "

/-- The line of the notice on standard output, if there is one. -/
def Printed.noticeLine (p : Printed) : String :=
  match p.notice with
  | some line => line ++ "\n"
  | none => ""

/-! ## Runes -/

theorem toLowerRune_of_upper (c : Char) (h : 65 ≤ c.toNat ∧ c.toNat ≤ 90) :
    (toLowerRune c).toNat = c.toNat + 32 := by
  obtain ⟨h1, h2⟩ := h
  have hc : c = Char.ofNat c.toNat := (Char.ofNat_toNat c).symm
  generalize c.toNat = n at h1 h2 hc
  subst hc
  interval_cases n <;> rfl

theorem toLowerRune_of_not_upper (c : Char) (h : ¬ (65 ≤ c.toNat ∧ c.toNat ≤ 90)) :
    toLowerRune c = c := by
  simp only [toLowerRune, if_neg h]

theorem isWordRune_toLowerRune (c : Char) : isWordRune (toLowerRune c) = isWordRune c := by
  by_cases h : 65 ≤ c.toNat ∧ c.toNat ≤ 90
  · have e := toLowerRune_of_upper c h
    rw [Bool.eq_iff_iff]
    simp only [isWordRune, e, Bool.or_eq_true, Bool.and_eq_true, decide_eq_true_eq]
    omega
  · rw [toLowerRune_of_not_upper c h]

theorem isSpaceRune_toLowerRune (c : Char) : isSpaceRune (toLowerRune c) = isSpaceRune c := by
  by_cases h : 65 ≤ c.toNat ∧ c.toNat ≤ 90
  · have e := toLowerRune_of_upper c h
    rw [Bool.eq_iff_iff]
    simp only [isSpaceRune, e, Bool.or_eq_true, Bool.and_eq_true, decide_eq_true_eq]
    omega
  · rw [toLowerRune_of_not_upper c h]

theorem isPunctRune_toLowerRune (c : Char) : isPunctRune (toLowerRune c) = isPunctRune c := by
  simp only [isPunctRune, isWordRune_toLowerRune, isSpaceRune_toLowerRune]

theorem isUpperRune_toLowerRune (c : Char) : isUpperRune (toLowerRune c) = false := by
  rw [Bool.eq_false_iff]
  intro hup
  simp only [isUpperRune, Bool.and_eq_true, decide_eq_true_eq] at hup
  by_cases h : 65 ≤ c.toNat ∧ c.toNat ≤ 90
  · have e := toLowerRune_of_upper c h
    omega
  · rw [toLowerRune_of_not_upper c h] at hup
    exact h hup

theorem toLowerRune_idem (c : Char) : toLowerRune (toLowerRune c) = toLowerRune c := by
  apply toLowerRune_of_not_upper
  intro h
  have := isUpperRune_toLowerRune c
  rw [Bool.eq_false_iff] at this
  apply this
  simp only [isUpperRune, Bool.and_eq_true, decide_eq_true_eq]
  exact h

/-! ## Lemmas on `Less` and `Swap` -/

theorem prio_of_get {pq : PriorityQueue} {k : Nat} {a : Item} (h : pq[k]? = some a) :
    prio pq k = a.priority := by
  simp [prio, h]

theorem Less_iff (pq : PriorityQueue) (i j : Nat) (hi : i < pq.length) (hj : j < pq.length) :
    pq.Less i j = true ↔ prio pq j < prio pq i := by
  simp [PriorityQueue.Less, prio, List.getElem?_eq_getElem hi, List.getElem?_eq_getElem hj]

theorem Swap_length (pq : PriorityQueue) (i j : Nat) : (pq.Swap i j).length = pq.length := by
  unfold PriorityQueue.Swap
  split <;> simp

theorem Swap_get_other (pq : PriorityQueue) (i j k : Nat) (hi : k ≠ i) (hj : k ≠ j) :
    (pq.Swap i j)[k]? = pq[k]? := by
  unfold PriorityQueue.Swap
  split
  · rw [List.getElem?_set_ne (Ne.symm hj), List.getElem?_set_ne (Ne.symm hi)]
  · rfl

theorem Swap_get_right (pq : PriorityQueue) (i j : Nat) (hi : i < pq.length)
    (hj : j < pq.length) :
    (pq.Swap i j)[j]? = some { pq[i] with index := (j : Int) } := by
  unfold PriorityQueue.Swap
  rw [List.getElem?_eq_getElem hi, List.getElem?_eq_getElem hj]
  simp [List.getElem?_set_self, hj]

theorem Swap_get_left (pq : PriorityQueue) (i j : Nat) (hi : i < pq.length)
    (hj : j < pq.length) (hij : i ≠ j) :
    (pq.Swap i j)[i]? = some { pq[j] with index := (i : Int) } := by
  unfold PriorityQueue.Swap
  rw [List.getElem?_eq_getElem hi, List.getElem?_eq_getElem hj]
  simp only []
  rw [List.getElem?_set_ne (Ne.symm hij)]
  simp [List.getElem?_set_self, hi]

theorem prio_Swap (pq : PriorityQueue) (i j k : Nat) (hi : i < pq.length)
    (hj : j < pq.length) :
    prio (pq.Swap i j) k
      = if k = j then prio pq i else if k = i then prio pq j else prio pq k := by
  by_cases hkj : k = j
  · subst hkj
    simp [prio, Swap_get_right pq i k hi hj, List.getElem?_eq_getElem hi]
  · by_cases hki : k = i
    · subst hki
      simp [prio, Swap_get_left pq k j hi hj hkj, List.getElem?_eq_getElem hj, hkj]
    · simp [prio, Swap_get_other pq i j k hki hkj, hkj, hki]

theorem set_cons_perm {α : Type} (t : List α) (j : Nat) (a b : α) (h : t[j]? = some b) :
    (b :: t.set j a).Perm (a :: t) := by
  induction t generalizing j with
  | nil => simp at h
  | cons x t ih =>
    cases j with
    | zero =>
      simp at h
      subst h
      simpa using List.Perm.swap a x t
    | succ j =>
      simp at h
      simp only [List.set_cons_succ]
      exact (List.Perm.swap x b _).trans (((ih j h).cons x).trans (List.Perm.swap a x t))

theorem set_set_perm {α : Type} (l : List α) (i j : Nat) (a b : α)
    (hi : l[i]? = some a) (hj : l[j]? = some b) :
    ((l.set i b).set j a).Perm l := by
  induction l generalizing i j with
  | nil => simp at hi
  | cons x t ih =>
    cases i with
    | zero =>
      simp at hi
      subst hi
      cases j with
      | zero =>
        simp at hj
        subst hj
        simp
      | succ j =>
        simp at hj
        simpa using set_cons_perm t j x b hj
    | succ i =>
      simp at hi
      cases j with
      | zero =>
        simp at hj
        subst hj
        simpa using (set_cons_perm t i x a hi)
      | succ j =>
        simp at hj
        simpa using ih i j hi hj

theorem Swap_entries_perm (pq : PriorityQueue) (i j : Nat) :
    ((pq.Swap i j).map Item.entry).Perm (pq.map Item.entry) := by
  unfold PriorityQueue.Swap
  split
  · rename_i a b ha hb
    rw [List.map_set, List.map_set]
    have h1 : (pq.map Item.entry)[i]? = some a.entry := by simp [ha]
    have h2 : (pq.map Item.entry)[j]? = some b.entry := by simp [hb]
    exact set_set_perm _ i j a.entry b.entry h1 h2
  · exact List.Perm.refl _

/-! ## `heap.down` -/

theorem downLoop_length (fuel : Nat) (pq : PriorityQueue) (i n : Nat) :
    (heap.downLoop fuel pq i n).length = pq.length := by
  induction fuel generalizing pq i with
  | zero => rfl
  | succ fuel ih =>
    simp only [heap.downLoop]
    split
    · rfl
    · generalize (if 2 * i + 1 + 1 < n ∧ pq.Less (2 * i + 1 + 1) (2 * i + 1) = true
        then 2 * i + 1 + 1 else 2 * i + 1) = j
      split
      · rw [ih, Swap_length]
      · rfl

theorem downLoop_entries_perm (fuel : Nat) (pq : PriorityQueue) (i n : Nat) :
    ((heap.downLoop fuel pq i n).map Item.entry).Perm (pq.map Item.entry) := by
  induction fuel generalizing pq i with
  | zero => exact List.Perm.refl _
  | succ fuel ih =>
    simp only [heap.downLoop]
    split
    · exact List.Perm.refl _
    · generalize (if 2 * i + 1 + 1 < n ∧ pq.Less (2 * i + 1 + 1) (2 * i + 1) = true
        then 2 * i + 1 + 1 else 2 * i + 1) = j
      split
      · exact (ih _ _).trans (Swap_entries_perm pq _ _)
      · exact List.Perm.refl _

/-- The loop of `down` started at `i` with bound `n` never touches a slot at or above
`n`, nor one below `i`. -/
theorem downLoop_get_outside (fuel : Nat) (pq : PriorityQueue) (i n k : Nat)
    (hk : n ≤ k ∨ k < i) : (heap.downLoop fuel pq i n)[k]? = pq[k]? := by
  induction fuel generalizing pq i with
  | zero => rfl
  | succ fuel ih =>
    simp only [heap.downLoop]
    split
    · rfl
    · rename_i hn
      obtain ⟨j, hjdef, hjc⟩ :
          ∃ j, j = (if 2 * i + 1 + 1 < n ∧ pq.Less (2 * i + 1 + 1) (2 * i + 1) = true
                then 2 * i + 1 + 1 else 2 * i + 1)
            ∧ (j = 2 * i + 1 ∨ (j = 2 * i + 2 ∧ 2 * i + 2 < n)) := by
        refine ⟨_, rfl, ?_⟩
        split
        · right; omega
        · left; rfl
      rw [← hjdef]
      split
      · rw [ih _ _ (by omega)]
        exact Swap_get_other pq i j k (by omega) (by omega)
      · rfl

/-- The fuel `n` of `heap.down` is enough: from position `i`, any fuel of at least
`n - i` gives the same queue, because `i` grows at every iteration and the loop stops
once `2 * i + 1` reaches `n`. -/
theorem downLoop_fuel_irrel (f1 f2 : Nat) (pq : PriorityQueue) (i n : Nat)
    (h1 : n ≤ i + f1) (h2 : n ≤ i + f2) :
    heap.downLoop f1 pq i n = heap.downLoop f2 pq i n := by
  induction f1 generalizing f2 pq i with
  | zero =>
    cases f2 with
    | zero => rfl
    | succ b =>
      simp only [heap.downLoop]
      rw [if_pos (by omega)]
  | succ a ih =>
    cases f2 with
    | zero =>
      simp only [heap.downLoop]
      rw [if_pos (by omega)]
    | succ b =>
      simp only [heap.downLoop]
      split
      · rfl
      · obtain ⟨j, hjdef, hjc⟩ :
            ∃ j, j = (if 2 * i + 1 + 1 < n ∧ pq.Less (2 * i + 1 + 1) (2 * i + 1) = true
                  then 2 * i + 1 + 1 else 2 * i + 1)
              ∧ (j = 2 * i + 1 ∨ j = 2 * i + 2) := by
          refine ⟨_, rfl, ?_⟩
          split
          · right; rfl
          · left; rfl
        rw [← hjdef]
        split
        · exact ih b _ j (by omega) (by omega)
        · rfl

/-- Sift-down restores the heap condition. Before the loop the condition holds at
every parent slot from `lo` on except `i`, and the children of `i` are at most the
parent of `i` (when that parent is at or above `lo`); afterwards the condition holds
at every slot from `lo` on. -/
theorem downLoop_heap (fuel : Nat) (pq : PriorityQueue) (i n lo : Nat)
    (hn : n ≤ pq.length) (hfuel : n ≤ i + fuel) (hlo : lo ≤ i)
    (hother : ∀ k, lo ≤ k → k ≠ i → HeapAt pq n k)
    (hgrand : ∀ p, lo ≤ p → (i = 2 * p + 1 ∨ i = 2 * p + 2) →
      (2 * i + 1 < n → prio pq (2 * i + 1) ≤ prio pq p)
        ∧ (2 * i + 2 < n → prio pq (2 * i + 2) ≤ prio pq p)) :
    ∀ k, lo ≤ k → HeapAt (heap.downLoop fuel pq i n) n k := by
  induction fuel generalizing pq i with
  | zero =>
    intro k hk
    by_cases hki : k = i
    · subst hki
      exact ⟨fun h => by omega, fun h => by omega⟩
    · exact hother k hk hki
  | succ fuel ih =>
    simp only [heap.downLoop]
    split
    · rename_i hle
      intro k hk
      by_cases hki : k = i
      · subst hki
        exact ⟨fun h => by omega, fun h => by omega⟩
      · exact hother k hk hki
    · rename_i hlt
      have hj1 : 2 * i + 1 < n := by omega
      -- the larger child
      obtain ⟨j, hjdef, hjcases, hjmax1, hjmax2⟩ :
          ∃ j, j = (if 2 * i + 1 + 1 < n ∧ pq.Less (2 * i + 1 + 1) (2 * i + 1) = true
                then 2 * i + 1 + 1 else 2 * i + 1)
            ∧ (j = 2 * i + 1 ∨ (j = 2 * i + 2 ∧ 2 * i + 2 < n))
            ∧ prio pq (2 * i + 1) ≤ prio pq j
            ∧ (2 * i + 2 < n → prio pq (2 * i + 2) ≤ prio pq j) := by
        refine ⟨_, rfl, ?_, ?_, ?_⟩
        · split
          · right; omega
          · left; rfl
        · split
          · rename_i h
            have := (Less_iff pq (2 * i + 1 + 1) (2 * i + 1) (by omega) (by omega)).1 h.2
            exact le_of_lt this
          · exact le_refl _
        · intro h2
          split
          · exact le_refl _
          · rename_i h
            have hnl : ¬ pq.Less (2 * i + 1 + 1) (2 * i + 1) = true := fun hl => h ⟨h2, hl⟩
            rw [Less_iff pq (2 * i + 1 + 1) (2 * i + 1) (by omega) (by omega)] at hnl
            exact not_lt.1 hnl
      rw [← hjdef]
      have hjn : j < n := by omega
      have hij : i < j := by omega
      split
      · rename_i hless
        rw [Less_iff pq j i (by omega) (by omega)] at hless
        have hP : ∀ k, prio (pq.Swap i j) k
            = if k = j then prio pq i else if k = i then prio pq j else prio pq k :=
          fun k => prio_Swap pq i j k (by omega) (by omega)
        apply ih (pq.Swap i j) j
        · rw [Swap_length]; exact hn
        · omega
        · omega
        · intro k hk hkj
          by_cases hki : k = i
          · subst hki
            constructor
            · intro h
              rw [hP, hP]
              have := hjmax1
              split_ifs <;> omega
            · intro h
              rw [hP, hP]
              have := hjmax2 h
              have := hjmax1
              split_ifs <;> omega
          · have hk' := hother k hk hki
            have hg := hgrand k hk
            unfold HeapAt at hk' ⊢
            constructor
            · intro h
              rw [hP, hP]
              have h1 := hk'.1 h
              split_ifs with c1 c2
              all_goals first
                | omega
                | (have hg' := hg (Or.inl (by omega))
                   rcases hjcases with e | ⟨e, e2⟩
                   · have := hg'.1 hj1; rw [e]; exact this
                   · have := hg'.2 e2; rw [e]; exact this)
            · intro h
              rw [hP, hP]
              have h1 := hk'.2 h
              split_ifs with c1 c2
              all_goals first
                | omega
                | (have hg' := hg (Or.inr (by omega))
                   rcases hjcases with e | ⟨e, e2⟩
                   · have := hg'.1 hj1; rw [e]; exact this
                   · have := hg'.2 e2; rw [e]; exact this)
        · intro p hp hpj
          have hpi : p = i := by omega
          subst hpi
          have hjh := hother j (by omega) (by omega)
          constructor
          · intro h
            rw [hP, hP]
            have := hjh.1 h
            split_ifs <;> omega
          · intro h
            rw [hP, hP]
            have := hjh.2 h
            split_ifs <;> omega
      · rename_i hless
        rw [Less_iff pq j i (by omega) (by omega)] at hless
        have hle : prio pq j ≤ prio pq i := not_lt.1 hless
        intro k hk
        by_cases hki : k = i
        · subst hki
          exact ⟨fun _ => le_trans hjmax1 hle, fun h => le_trans (hjmax2 h) hle⟩
        · exact hother k hk hki

/-! ## `heap.Init` -/

theorem initLoop_length (k : Nat) (pq : PriorityQueue) (n : Nat) :
    (heap.initLoop k pq n).length = pq.length := by
  induction k generalizing pq with
  | zero => rfl
  | succ k ih =>
    simp only [heap.initLoop]
    rw [ih, heap.down, downLoop_length]

theorem initLoop_entries_perm (k : Nat) (pq : PriorityQueue) (n : Nat) :
    ((heap.initLoop k pq n).map Item.entry).Perm (pq.map Item.entry) := by
  induction k generalizing pq with
  | zero => exact List.Perm.refl _
  | succ k ih =>
    simp only [heap.initLoop]
    exact (ih _).trans (downLoop_entries_perm _ _ _ _)

theorem initLoop_heap (k : Nat) (pq : PriorityQueue) (n : Nat) (hn : n ≤ pq.length)
    (h : ∀ m, k ≤ m → HeapAt pq n m) :
    ∀ m, HeapAt (heap.initLoop k pq n) n m := by
  induction k generalizing pq with
  | zero => exact fun m => h m (Nat.zero_le m)
  | succ k ih =>
    simp only [heap.initLoop]
    apply ih
    · rw [heap.down, downLoop_length]; exact hn
    · apply downLoop_heap n pq k n k hn (by omega) (le_refl k)
      · intro m hm hmk
        exact h m (by omega)
      · intro p hp hpk
        omega

/-- The function `heap.Init` keeps the length of the queue. -/
theorem Init_length (pq : PriorityQueue) : (heap.Init pq).length = pq.length := by
  unfold heap.Init
  exact initLoop_length _ _ _

/-- The function `heap.Init` only rearranges the entries. -/
theorem Init_entries_perm (pq : PriorityQueue) :
    ((heap.Init pq).map Item.entry).Perm (pq.map Item.entry) := by
  unfold heap.Init
  exact initLoop_entries_perm _ _ _

/-- The function `heap.Init` establishes the max-heap property. -/
theorem Init_isHeap (pq : PriorityQueue) : IsHeap (heap.Init pq) := by
  intro m
  rw [Init_length]
  unfold heap.Init PriorityQueue.Len
  apply initLoop_heap (pq.length / 2) pq pq.length (le_refl _)
  intro m hm
  exact ⟨fun h => by omega, fun h => by omega⟩

/-- In a max-heap the root has the largest priority. -/
theorem IsHeap_root_max (pq : PriorityQueue) (h : IsHeap pq) :
    ∀ k, k < pq.length → prio pq k ≤ prio pq 0 := by
  intro k
  induction k using Nat.strong_induction_on with
  | _ k ih =>
    intro hk
    rcases Nat.eq_zero_or_pos k with h0 | hpos
    · subst h0; exact le_refl _
    · have hp := ih ((k - 1) / 2) (by omega) (by omega)
      have hh := h ((k - 1) / 2)
      rcases Nat.even_or_odd k with he | ho
      · obtain ⟨r, hr⟩ := he
        have e : 2 * ((k - 1) / 2) + 2 = k := by omega
        have := hh.2 (by omega)
        rw [e] at this
        exact le_trans this hp
      · obtain ⟨r, hr⟩ := ho
        have e : 2 * ((k - 1) / 2) + 1 = k := by omega
        have := hh.1 (by omega)
        rw [e] at this
        exact le_trans this hp

theorem IsHeap_mem_le_root (pq : PriorityQueue) (h : IsHeap pq) (b : Item) (hb : b ∈ pq) :
    b.priority ≤ prio pq 0 := by
  obtain ⟨k, hk⟩ := List.mem_iff_getElem?.1 hb
  have hlt : k < pq.length := by
    rcases List.getElem?_eq_some.1 hk with ⟨hlt, _⟩
    exact hlt
  have := IsHeap_root_max pq h k hlt
  rwa [prio_of_get hk] at this

/-! ## `heap.Pop` -/

/-- On a non-empty queue `heap.Pop` succeeds: it returns the item of slot `0` (with
`index = -1`) and a queue one shorter that holds the other entries. -/
theorem heap_Pop_some (pq : PriorityQueue) (hne : pq ≠ []) :
    ∃ item rest, heap.Pop pq = some (item, rest)
      ∧ rest = (heap.down (pq.Swap 0 (pq.length - 1)) 0 (pq.length - 1)).dropLast
      ∧ rest.length + 1 = pq.length
      ∧ item.priority = prio pq 0
      ∧ (item.entry :: rest.map Item.entry).Perm (pq.map Item.entry) := by
  have hpos : 0 < pq.length := List.length_pos.2 hne
  have hlen2 : (heap.down (pq.Swap 0 (pq.length - 1)) 0 (pq.length - 1)).length = pq.length := by
    rw [heap.down, downLoop_length, Swap_length]
  have hlast : (heap.down (pq.Swap 0 (pq.length - 1)) 0 (pq.length - 1)).getLast?
      = some { pq[0] with index := ((pq.length - 1 : Nat) : Int) } := by
    rw [List.getLast?_eq_getElem?, hlen2, heap.down,
      downLoop_get_outside _ _ _ _ _ (Or.inl (le_refl _))]
    exact Swap_get_right pq 0 (pq.length - 1) hpos (by omega)
  refine ⟨{ pq[0] with index := -1 },
    (heap.down (pq.Swap 0 (pq.length - 1)) 0 (pq.length - 1)).dropLast, ?_, rfl, ?_, ?_, ?_⟩
  · unfold heap.Pop PriorityQueue.Len
    rw [if_neg (by omega)]
    simp only [PriorityQueue.Pop, hlast]
  · rw [List.length_dropLast, hlen2]; omega
  · simp [prio, List.getElem?_eq_getElem hpos]
  · have hsplit := List.dropLast_append_getLast? _ hlast
    have hperm : ((heap.down (pq.Swap 0 (pq.length - 1)) 0 (pq.length - 1)).map
        Item.entry).Perm (pq.map Item.entry) :=
      (downLoop_entries_perm _ _ _ _).trans (Swap_entries_perm pq _ _)
    rw [← hsplit, List.map_append] at hperm
    refine List.Perm.trans ?_ hperm
    simpa [Item.entry] using
      (List.perm_append_comm :
        ([(pq[0].value, pq[0].priority)] ++ _).Perm (_ ++ [(pq[0].value, pq[0].priority)]))

/-- The function `heap.Pop` on a max-heap leaves a max-heap. -/
theorem heap_Pop_isHeap (pq : PriorityQueue) (h : IsHeap pq) (hne : pq ≠ []) :
    IsHeap (heap.down (pq.Swap 0 (pq.length - 1)) 0 (pq.length - 1)).dropLast := by
  have hpos : 0 < pq.length := List.length_pos.2 hne
  have hP : ∀ k, prio (pq.Swap 0 (pq.length - 1)) k
      = if k = pq.length - 1 then prio pq 0 else if k = 0 then prio pq (pq.length - 1)
        else prio pq k :=
    fun k => prio_Swap pq 0 (pq.length - 1) k hpos (by omega)
  have hdown : ∀ k, HeapAt (heap.down (pq.Swap 0 (pq.length - 1)) 0 (pq.length - 1))
      (pq.length - 1) k := by
    intro k
    apply downLoop_heap (pq.length - 1) (pq.Swap 0 (pq.length - 1)) 0 (pq.length - 1) 0
      (by rw [Swap_length]; omega) (by omega) (le_refl 0) _ _ k (Nat.zero_le k)
    · intro m _ hm0
      have hm := h m
      constructor
      · intro hc
        rw [hP, hP]
        rw [if_neg (by omega), if_neg (by omega), if_neg (by omega), if_neg (by omega)]
        exact hm.1 (by omega)
      · intro hc
        rw [hP, hP]
        rw [if_neg (by omega), if_neg (by omega), if_neg (by omega), if_neg (by omega)]
        exact hm.2 (by omega)
    · intro p _ hp
      omega
  have hlen : (heap.down (pq.Swap 0 (pq.length - 1)) 0 (pq.length - 1)).length = pq.length := by
    rw [heap.down, downLoop_length, Swap_length]
  have hprio : ∀ k, k < pq.length - 1 →
      prio (heap.down (pq.Swap 0 (pq.length - 1)) 0 (pq.length - 1)).dropLast k
        = prio (heap.down (pq.Swap 0 (pq.length - 1)) 0 (pq.length - 1)) k := by
    intro k hk
    unfold prio
    rw [List.getElem?_dropLast, hlen, if_pos hk]
  intro k
  rw [List.length_dropLast, hlen]
  have hk := hdown k
  constructor
  · intro hc
    rw [hprio _ hc, hprio _ (by omega)]
    exact hk.1 hc
  · intro hc
    rw [hprio _ hc, hprio _ (by omega)]
    exact hk.2 hc

/-- The specification of one `heap.Pop` on a non-empty max-heap: it returns an item of
largest priority and leaves a max-heap with the other entries. -/
theorem heap_Pop_spec (pq : PriorityQueue) (h : IsHeap pq) (hne : pq ≠ []) :
    ∃ item rest, heap.Pop pq = some (item, rest)
      ∧ IsHeap rest
      ∧ rest.length + 1 = pq.length
      ∧ (item.entry :: rest.map Item.entry).Perm (pq.map Item.entry)
      ∧ ∀ b ∈ pq, b.priority ≤ item.priority := by
  obtain ⟨item, rest, hpop, hrest, hlen, hprio, hperm⟩ := heap_Pop_some pq hne
  refine ⟨item, rest, hpop, ?_, hlen, hperm, ?_⟩
  · rw [hrest]; exact heap_Pop_isHeap pq h hne
  · intro b hb
    rw [hprio]
    exact IsHeap_mem_le_root pq h b hb

/-! ## The extraction loop -/

/-- The loop of `PrintTopNFrequentWords` on a max-heap with at least `k` items: it
succeeds, pops exactly `k` items in non-increasing order of priority, and what is left
in the queue is a max-heap whose items have a priority at most that of every popped
item. Popped and remaining entries together are the entries of the initial queue. -/
theorem popLoop_spec (k : Nat) (pq : PriorityQueue) (h : IsHeap pq) (hk : k ≤ pq.length) :
    ∃ items final, popLoop k pq = some (items, final)
      ∧ items.length = k
      ∧ final.length + k = pq.length
      ∧ IsHeap final
      ∧ ((items ++ final).map Item.entry).Perm (pq.map Item.entry)
      ∧ items.Pairwise (fun a b => b.priority ≤ a.priority)
      ∧ ∀ a ∈ items, ∀ b ∈ final, b.priority ≤ a.priority := by
  induction k generalizing pq with
  | zero =>
    exact ⟨[], pq, rfl, rfl, rfl, h, List.Perm.refl _, List.Pairwise.nil,
      fun a ha => by simp at ha⟩
  | succ k ih =>
    have hne : pq ≠ [] := by
      intro e; subst e; simp at hk
    obtain ⟨item, rest, hpop, hheap, hlen, hperm, hmax⟩ := heap_Pop_spec pq h hne
    obtain ⟨items, final, hloop, hil, hfl, hfh, hp2, hsorted, hbound⟩ :=
      ih rest hheap (by omega)
    have hsub : ∀ b ∈ items ++ final, b.priority ≤ item.priority := by
      intro b hb
      have h1 : b.entry ∈ (items ++ final).map Item.entry := List.mem_map_of_mem _ hb
      have h2 : b.entry ∈ pq.map Item.entry :=
        hperm.subset (List.mem_cons_of_mem _ (hp2.subset h1))
      obtain ⟨c, hc, hce⟩ := List.mem_map.1 h2
      have : c.priority = b.priority := congrArg Prod.snd hce
      rw [← this]
      exact hmax c hc
    refine ⟨item :: items, final, ?_, ?_, ?_, hfh, ?_, ?_, ?_⟩
    · simp only [popLoop, hpop, hloop]
    · simp [hil]
    · omega
    · simp only [List.cons_append, List.map_cons]
      exact (List.Perm.cons _ hp2).trans hperm
    · refine List.Pairwise.cons ?_ hsorted
      intro b hb
      exact hsub b (List.mem_append_left _ hb)
    · intro a ha b hb
      rcases List.mem_cons.1 ha with e | ha'
      · subst e
        exact hsub b (List.mem_append_right _ hb)
      · exact hbound a ha' b hb

/-! ## The tokenizer -/

theorem findAllWordPunct_fuel_irrel (f1 f2 : Nat) (s : List Char)
    (h1 : s.length ≤ f1) (h2 : s.length ≤ f2) :
    findAllWordPunct f1 s = findAllWordPunct f2 s := by
  induction f1 generalizing f2 s with
  | zero =>
    have : s = [] := List.length_eq_zero.1 (Nat.le_zero.1 h1)
    subst this
    cases f2 <;> rfl
  | succ a ih =>
    cases s with
    | nil => cases f2 <;> rfl
    | cons c cs =>
      cases f2 with
      | zero => simp at h2
      | succ b =>
        simp only [List.length_cons, Nat.add_le_add_iff_right] at h1 h2
        have hw := (List.dropWhile_sublist (l := cs) isWordRune).length_le
        have hp := (List.dropWhile_sublist (l := cs) isPunctRune).length_le
        simp only [findAllWordPunct]
        rw [ih b (cs.dropWhile isWordRune) (by omega) (by omega),
          ih b (cs.dropWhile isPunctRune) (by omega) (by omega), ih b cs h1 h2]

/-- The length of the text is enough fuel for the scan: more fuel does not change the
tokens. -/
theorem findAllWordPunct_fuel (fuel : Nat) (s : List Char) (h : s.length ≤ fuel) :
    findAllWordPunct fuel s = findAllWordPunct s.length s :=
  findAllWordPunct_fuel_irrel fuel s.length s h (le_refl _)

/-- Every token is a non-empty run of runes of the text. -/
theorem findAllWordPunct_mem (fuel : Nat) (s t : List Char)
    (ht : t ∈ findAllWordPunct fuel s) : t ≠ [] ∧ ∀ c ∈ t, c ∈ s := by
  induction fuel generalizing s with
  | zero => simp [findAllWordPunct] at ht
  | succ fuel ih =>
    cases s with
    | nil => simp [findAllWordPunct] at ht
    | cons c cs =>
      simp only [findAllWordPunct] at ht
      split at ht
      · rcases List.mem_cons.1 ht with e | ht'
        · subst e
          refine ⟨List.cons_ne_nil _ _, ?_⟩
          intro d hd
          rcases List.mem_cons.1 hd with e | hd'
          · exact e ▸ List.mem_cons_self _ _
          · exact List.mem_cons_of_mem _ ((List.takeWhile_sublist _).subset hd')
        · obtain ⟨hne, hsub⟩ := ih _ ht'
          exact ⟨hne, fun d hd =>
            List.mem_cons_of_mem _ ((List.dropWhile_sublist _).subset (hsub d hd))⟩
      · split at ht
        · rcases List.mem_cons.1 ht with e | ht'
          · subst e
            refine ⟨List.cons_ne_nil _ _, ?_⟩
            intro d hd
            rcases List.mem_cons.1 hd with e | hd'
            · exact e ▸ List.mem_cons_self _ _
            · exact List.mem_cons_of_mem _ ((List.takeWhile_sublist _).subset hd')
          · obtain ⟨hne, hsub⟩ := ih _ ht'
            exact ⟨hne, fun d hd =>
              List.mem_cons_of_mem _ ((List.dropWhile_sublist _).subset (hsub d hd))⟩
        · obtain ⟨hne, hsub⟩ := ih _ ht
          exact ⟨hne, fun d hd => List.mem_cons_of_mem _ (hsub d hd)⟩

/-- Lower-casing the text lower-cases each token and moves no token boundary. -/
theorem findAllWordPunct_map_lower (fuel : Nat) (s : List Char) :
    findAllWordPunct fuel (s.map toLowerRune)
      = (findAllWordPunct fuel s).map (List.map toLowerRune) := by
  have hw : (isWordRune ∘ toLowerRune) = isWordRune := funext isWordRune_toLowerRune
  have hp : (isPunctRune ∘ toLowerRune) = isPunctRune := funext isPunctRune_toLowerRune
  induction fuel generalizing s with
  | zero => rfl
  | succ fuel ih =>
    cases s with
    | nil => rfl
    | cons c cs =>
      simp only [List.map_cons, findAllWordPunct, isWordRune_toLowerRune,
        isPunctRune_toLowerRune, List.takeWhile_map, List.dropWhile_map, hw, hp, ih]
      split
      · rfl
      · split <;> rfl

theorem Tokenize_mem (s t : String) (ht : t ∈ Tokenize s) :
    t.data ≠ [] ∧ ∀ c ∈ t.data, c ∈ s.data := by
  unfold Tokenize at ht
  obtain ⟨l, hl, rfl⟩ := List.mem_map.1 ht
  exact findAllWordPunct_mem _ _ _ hl

theorem Tokenize_asciiLower (s : String) :
    Tokenize (asciiLower s) = (Tokenize s).map asciiLower := by
  simp only [Tokenize, asciiLower, List.length_map, findAllWordPunct_map_lower, List.map_map]
  rfl

theorem MatchNonWord_asciiLower (w : String) :
    MatchNonWord (asciiLower w) = MatchNonWord w := by
  simp only [MatchNonWord, asciiLower, List.any_map]
  congr 1
  funext c
  simp [isWordRune_toLowerRune]

theorem asciiLower_idem (w : String) : asciiLower (asciiLower w) = asciiLower w := by
  simp only [asciiLower, List.map_map]
  congr 1
  apply List.map_congr_left
  intro c _
  exact toLowerRune_idem c

theorem MatchNonWord_eq_false (w : String) :
    MatchNonWord w = false ↔ ∀ c ∈ w.data, isWordRune c = true := by
  simp [MatchNonWord]

/-! ## The map of counts -/

theorem incr_keys (m : CountMap) (key : String) :
    (m.incr key).keys = if key ∈ m.keys then m.keys else m.keys ++ [key] := by
  induction m with
  | nil => simp [CountMap.incr, CountMap.keys]
  | cons e rest ih =>
    obtain ⟨k, c⟩ := e
    simp only [CountMap.incr]
    by_cases hk : k = key
    · simp [hk, CountMap.keys]
    · have hk' : ¬ key = k := fun e => hk e.symm
      simp only [CountMap.keys] at ih
      simp only [if_neg hk, CountMap.keys, List.map_cons, List.mem_cons, hk', false_or, ih]
      split <;> simp

theorem incr_keys_mem (m : CountMap) (key w : String) :
    w ∈ (m.incr key).keys ↔ w = key ∨ w ∈ m.keys := by
  rw [incr_keys]
  split
  · rename_i h
    constructor
    · exact Or.inr
    · rintro (e | h')
      · exact e ▸ h
      · exact h'
  · simp [or_comm]

theorem incr_keys_nodup (m : CountMap) (key : String) (h : m.keys.Nodup) :
    (m.incr key).keys.Nodup := by
  rw [incr_keys]
  split
  · exact h
  · rename_i hk
    exact List.Nodup.append h (List.nodup_singleton key) (by simpa using hk)

theorem incr_get (m : CountMap) (key w : String) :
    (m.incr key).get w = if w = key then m.get w + 1 else m.get w := by
  induction m with
  | nil =>
    by_cases hw : w = key
    · simp [CountMap.incr, CountMap.get, hw]
    · have : ¬ key = w := fun e => hw e.symm
      simp [CountMap.incr, CountMap.get, hw, this]
  | cons e rest ih =>
    obtain ⟨k, c⟩ := e
    simp only [CountMap.incr]
    by_cases hk : k = key
    · subst hk
      by_cases hw : w = k
      · subst hw; simp [CountMap.get]
      · have : ¬ k = w := fun e => hw e.symm
        simp [CountMap.get, hw, this]
    · simp only [if_neg hk, CountMap.get, ih]
      by_cases hkw : k = w
      · subst hkw
        simp [hk]
      · simp [hkw]

theorem incr_total (m : CountMap) (key : String) :
    (m.incr key).total = m.total + 1 := by
  induction m with
  | nil => simp [CountMap.incr, CountMap.total]
  | cons e rest ih =>
    obtain ⟨k, c⟩ := e
    simp only [CountMap.incr]
    simp only [CountMap.total] at ih
    split
    · simp [CountMap.total]; ring
    · simp [CountMap.total, ih]; ring

/-- In a map with distinct keys, the entry stored under a key is the value read. -/
theorem mem_get (m : CountMap) (h : m.keys.Nodup) (w : String) (c : Int)
    (hm : (w, c) ∈ m) : m.get w = c := by
  induction m with
  | nil => simp at hm
  | cons e rest ih =>
    obtain ⟨k, d⟩ := e
    simp only [CountMap.keys, List.map_cons, List.nodup_cons] at h
    rcases List.mem_cons.1 hm with e | hm'
    · cases e
      simp [CountMap.get]
    · have hkw : k ≠ w := by
        intro e
        subst e
        exact h.1 (List.mem_map_of_mem Prod.fst hm')
      simp only [CountMap.get, if_neg hkw]
      exact ih h.2 hm'

/-- The loop of `WordCount` only looks at the lower-cased qualifying tokens. -/
theorem countWords_eq (m : CountMap) (words : List String) :
    countWords m words
      = ((words.filter fun word => !MatchNonWord word).map ToLower).foldl CountMap.incr m := by
  induction words generalizing m with
  | nil => rfl
  | cons w ws ih =>
    simp only [countWords, List.foldl_cons] at ih ⊢
    rw [ih]
    by_cases hw : MatchNonWord w = true
    · simp [hw]
    · simp [hw]

theorem WordCount_eq (s : String) :
    WordCount s = (loweredWords s).foldl CountMap.incr [] := by
  simp only [WordCount, countWords_eq, loweredWords, qualifying]

theorem foldl_incr_keys_mem (m : CountMap) (ws : List String) (w : String) :
    w ∈ (ws.foldl CountMap.incr m).keys ↔ w ∈ m.keys ∨ w ∈ ws := by
  induction ws generalizing m with
  | nil => simp
  | cons x ws ih =>
    simp only [List.foldl_cons, ih, incr_keys_mem, List.mem_cons]
    tauto

theorem foldl_incr_keys_nodup (m : CountMap) (ws : List String) (h : m.keys.Nodup) :
    (ws.foldl CountMap.incr m).keys.Nodup := by
  induction ws generalizing m with
  | nil => exact h
  | cons x ws ih => exact ih _ (incr_keys_nodup m x h)

theorem foldl_incr_get (m : CountMap) (ws : List String) (w : String) :
    (ws.foldl CountMap.incr m).get w = m.get w + (ws.count w : Int) := by
  induction ws generalizing m with
  | nil => simp
  | cons x ws ih =>
    simp only [List.foldl_cons, ih, incr_get, List.count_cons]
    by_cases hw : w = x
    · subst hw; simp; ring
    · have : ¬ x = w := fun e => hw e.symm
      simp [hw, this]

theorem foldl_incr_total (m : CountMap) (ws : List String) :
    (ws.foldl CountMap.incr m).total = m.total + (ws.length : Int) := by
  induction ws generalizing m with
  | nil => simp
  | cons x ws ih =>
    simp only [List.foldl_cons, ih, incr_total, List.length_cons]
    push_cast
    ring

/-- The keys of `WordCount` are pairwise distinct. -/
theorem WordCount_keys_nodup (s : String) : (WordCount s).keys.Nodup := by
  rw [WordCount_eq]
  exact foldl_incr_keys_nodup [] _ List.nodup_nil

/-! ## `GetFrequencyMap` and `PrintTopNFrequentWords` -/

theorem fillQueue_entries (l : List (String × Int)) (i : Nat) :
    (fillQueue l i).map Item.entry = l := by
  induction l generalizing i with
  | nil => rfl
  | cons e rest ih =>
    obtain ⟨v, p⟩ := e
    simp only [fillQueue, List.map_cons, ih]
    rfl

theorem fillQueue_length (l : List (String × Int)) (i : Nat) :
    (fillQueue l i).length = l.length := by
  rw [← List.length_map (fillQueue l i) Item.entry, fillQueue_entries]

/-- The queue of `GetFrequencyMap` is a max-heap. -/
theorem GetFrequencyMap_isHeap (rng : CountMap → List (String × Int)) (content : String) :
    IsHeap (GetFrequencyMap rng content) :=
  Init_isHeap _

/-- The entries of the queue of `GetFrequencyMap` are the entries visited by `range`. -/
theorem GetFrequencyMap_entries_perm (rng : CountMap → List (String × Int))
    (content : String) :
    ((GetFrequencyMap rng content).map Item.entry).Perm (rng (WordCount content)) := by
  have h := Init_entries_perm (fillQueue (rng (WordCount content)) 0)
  rw [fillQueue_entries] at h
  exact h

/-- The notice of `PrintTopNFrequentWords` for a queue of the given size. -/
theorem PrintTopNFrequentWords_eq (n : Nat) (pq : PriorityQueue) :
    PrintTopNFrequentWords n pq
      = match popLoop (min 10 pq.length) pq with
        | none => none
        | some (items, _) =>
          some { notice :=
                  if pq.length < 10 then
                    some ("There are less words than " ++ Itoa 10 ++ " retrieving "
                      ++ Itoa pq.length ++ " instead.")
                  else none
                 items := items } := by
  unfold PrintTopNFrequentWords PriorityQueue.Len
  by_cases h : pq.length < 10
  · have hmin : min 10 pq.length = pq.length := by omega
    simp only [h, decide_True, if_true, hmin]
  · have hmin : min 10 pq.length = 10 := by omega
    simp only [h, decide_False, if_false, hmin, Bool.false_eq_true]

/-- The loop pops exactly `k` items from any queue that holds at least `k`. -/
theorem popLoop_some (k : Nat) (pq : PriorityQueue) (hk : k ≤ pq.length) :
    ∃ items final, popLoop k pq = some (items, final) ∧ items.length = k := by
  induction k generalizing pq with
  | zero => exact ⟨[], pq, rfl, rfl⟩
  | succ k ih =>
    have hne : pq ≠ [] := by
      intro e; subst e; simp at hk
    obtain ⟨item, rest, hpop, _, hlen, _, _⟩ := heap_Pop_some pq hne
    obtain ⟨items, final, hloop, hil⟩ := ih rest (by omega)
    exact ⟨item :: items, final, by simp only [popLoop, hpop, hloop], by simp [hil]⟩

/-- The function `PrintTopNFrequentWords` on a max-heap, whatever `n`: it succeeds and extracts
`min 10 size` items in non-increasing order of priority; the extracted entries and the
entries left in the queue are together the entries of the queue, and no entry left has a
larger priority than an extracted one. -/
theorem PrintTopNFrequentWords_spec (n : Nat) (pq : PriorityQueue) (h : IsHeap pq) :
    ∃ out final, PrintTopNFrequentWords n pq = some out
      ∧ out.items.length = min 10 pq.length
      ∧ ((out.items ++ final).map Item.entry).Perm (pq.map Item.entry)
      ∧ out.items.Pairwise (fun a b => b.priority ≤ a.priority)
      ∧ ∀ a ∈ out.items, ∀ b ∈ final, b.priority ≤ a.priority := by
  obtain ⟨items, final, hloop, hil, _, _, hperm, hsorted, hbound⟩ :=
    popLoop_spec (min 10 pq.length) pq h (Nat.min_le_right _ _)
  rw [PrintTopNFrequentWords_eq, hloop]
  exact ⟨_, final, rfl, hil, hperm, hsorted, hbound⟩

/-! ## The claims -/

/-- C1: for every input text, every iteration order of the map and every requested `n`,
`PrintTopNFrequentWords` applied to `GetFrequencyMap(text)` terminates normally and the
sequence of `(word, count)` entries it extracts has non-increasing counts from its first
to its last element. -/
theorem C1_extracted_counts_nonincreasing (rng : CountMap → List (String × Int))
    (text : String) (n : Nat) :
    ∃ out, PrintTopNFrequentWords n (GetFrequencyMap rng text) = some out
      ∧ out.entries.Pairwise (fun a b => b.2 ≤ a.2) := by
  obtain ⟨out, _, hout, _, _, hsorted, _⟩ :=
    PrintTopNFrequentWords_spec n _ (GetFrequencyMap_isHeap rng text)
  refine ⟨out, hout, ?_⟩
  unfold Printed.entries
  rw [List.pairwise_map]
  exact hsorted

/-- C2: for every input text, the entries extracted by `PrintTopNFrequentWords` from
`GetFrequencyMap(text)` are highest-count entries of `WordCount(text)`: every extracted
`(word, count)` is an entry of `WordCount(text)`, no word is extracted twice, and every
entry of `WordCount(text)` that is not extracted has a count at most the count of every
extracted entry. `rng` is the order in which `range` visits the map. -/
theorem C2_extracted_are_highest (rng : CountMap → List (String × Int))
    (hrng : ∀ m, (rng m).Perm m) (text : String) (n : Nat) :
    ∃ out, PrintTopNFrequentWords n (GetFrequencyMap rng text) = some out
      ∧ (∀ e ∈ out.entries, e ∈ WordCount text)
      ∧ (out.entries.map Prod.fst).Nodup
      ∧ (∀ e ∈ WordCount text, e ∉ out.entries → ∀ x ∈ out.entries, e.2 ≤ x.2) := by
  obtain ⟨out, final, hout, _, hperm, _, hbound⟩ :=
    PrintTopNFrequentWords_spec n _ (GetFrequencyMap_isHeap rng text)
  have hP : (out.entries ++ final.map Item.entry).Perm (WordCount text) := by
    have := (hperm.trans (GetFrequencyMap_entries_perm rng text)).trans (hrng _)
    rwa [List.map_append] at this
  refine ⟨out, hout, ?_, ?_, ?_⟩
  · intro e he
    exact hP.subset (List.mem_append_left _ he)
  · have hk : ((out.entries ++ final.map Item.entry).map Prod.fst).Nodup :=
      (hP.map Prod.fst).nodup_iff.2 (WordCount_keys_nodup text)
    rw [List.map_append] at hk
    exact hk.of_append_left
  · intro e he hne x hx
    have he' : e ∈ out.entries ++ final.map Item.entry := hP.mem_iff.2 he
    rcases List.mem_append.1 he' with h1 | h2
    · exact absurd h1 hne
    · obtain ⟨b, hb, hbe⟩ := List.mem_map.1 h2
      obtain ⟨a, ha, hae⟩ := List.mem_map.1 hx
      have := hbound a ha b hb
      rw [← hbe, ← hae]
      exact this

/-- C2, at the text `"b a b"` with the map visited in insertion order. -/
theorem C2_extracted_are_highest_witness :
    (∀ m : CountMap, ((fun m => m) m).Perm m)
      ∧ ∃ out, PrintTopNFrequentWords 1 (GetFrequencyMap (fun m => m) "b a b") = some out
        ∧ (∀ e ∈ out.entries, e ∈ WordCount "b a b")
        ∧ (out.entries.map Prod.fst).Nodup
        ∧ (∀ e ∈ WordCount "b a b", e ∉ out.entries → ∀ x ∈ out.entries, e.2 ≤ x.2) :=
  ⟨fun m => List.Perm.refl m,
    C2_extracted_are_highest (fun m => m) (fun m => List.Perm.refl m) "b a b" 1⟩

/-- C3 fails as stated: with `n = 0` and a map of one word, one entry is extracted,
not `min 0 1 = 0`. -/
theorem C3_counterexample :
    ∃ out, PrintTopNFrequentWords 0 (heap.Init (fillQueue [("a", 1)] 0)) = some out
      ∧ out.entries = [("a", 1)]
      ∧ out.entries.length ≠ min 0 ([("a", 1)] : CountMap).length :=
  ⟨{ notice := some "There are less words than 10 retrieving 1 instead.",
     items := [{ value := "a", priority := 1, index := -1 }] }, by decide, by decide, by decide⟩

/-- C3, amended: for every word-count mapping `counts` (one entry per distinct word),
every order `rng counts` in which its entries are put into the queue and every `n`, the
number of entries returned by `PrintTopNFrequentWords(n, queue built from counts)` is
`min(10, number of entries of counts)`, whatever `n` is; it is empty exactly when the
mapping is empty. -/
theorem C3_length_min_ten (rng : CountMap → List (String × Int)) (counts : CountMap)
    (hrng : (rng counts).Perm counts) (n : Nat) :
    ∃ out, PrintTopNFrequentWords n (heap.Init (fillQueue (rng counts) 0)) = some out
      ∧ out.entries.length = min 10 counts.length
      ∧ (out.entries = [] ↔ counts = []) := by
  obtain ⟨out, _, hout, hlen, _, _, _⟩ :=
    PrintTopNFrequentWords_spec n _ (Init_isHeap (fillQueue (rng counts) 0))
  rw [Init_length, fillQueue_length, hrng.length_eq] at hlen
  have hlen' : out.entries.length = min 10 counts.length := by
    unfold Printed.entries
    rw [List.length_map]
    exact hlen
  refine ⟨out, hout, hlen', ?_⟩
  rw [← List.length_eq_zero, hlen', ← List.length_eq_zero (l := counts)]
  omega

/-- C3 amended, at a map of three words and `n = 2`. -/
theorem C3_length_min_ten_witness :
    (List.reverse [("a", (2 : Int)), ("b", 1), ("c", 5)]).Perm [("a", 2), ("b", 1), ("c", 5)]
      ∧ ∃ out, PrintTopNFrequentWords 2
            (heap.Init (fillQueue (List.reverse [("a", 2), ("b", 1), ("c", 5)]) 0)) = some out
        ∧ out.entries.length = min 10 ([("a", 2), ("b", 1), ("c", 5)] : CountMap).length
        ∧ (out.entries = [] ↔ ([("a", 2), ("b", 1), ("c", 5)] : CountMap) = []) :=
  ⟨List.reverse_perm _,
    C3_length_min_ten List.reverse [("a", 2), ("b", 1), ("c", 5)] (List.reverse_perm _) 2⟩

/-- C4: for every input text, `WordCount(text)` has exactly one key per distinct
lower-cased qualifying token (the keys are pairwise distinct and are exactly the
lower-cased qualifying tokens), and the value stored under each key `w` is the number of
qualifying tokens of the text whose lower-cased form is `w`. For
`"the cat sat on the mat the cat ran"` the result is
`{the:3, cat:2, sat:1, on:1, mat:1, ran:1}`. -/
theorem C4_WordCount_entries :
    (∀ text : String,
      (WordCount text).keys.Nodup
        ∧ (∀ w, w ∈ (WordCount text).keys ↔ w ∈ loweredWords text)
        ∧ (∀ w c, (w, c) ∈ WordCount text →
            c = ((qualifying text).countP (fun t => ToLower t == w) : Int)))
      ∧ WordCount "the cat sat on the mat the cat ran"
          = [("the", 3), ("cat", 2), ("sat", 1), ("on", 1), ("mat", 1), ("ran", 1)] := by
  refine ⟨fun text => ⟨WordCount_keys_nodup text, ?_, ?_⟩, by decide⟩
  · intro w
    rw [WordCount_eq, foldl_incr_keys_mem]
    simp [CountMap.keys]
  · intro w c hwc
    have h := mem_get _ (WordCount_keys_nodup text) w c hwc
    rw [WordCount_eq, foldl_incr_get] at h
    rw [← h, loweredWords, List.count, List.countP_map]
    simp [CountMap.get]
    rfl

/-- C5: for every input text, every key of `WordCount(text)` is non-empty, contains only
word characters (ASCII letters, digits, underscore) and contains no upper-case letter. -/
theorem C5_keys_lowercase_words (text : String) (w : String)
    (hw : w ∈ (WordCount text).keys) :
    w ≠ "" ∧ ∀ c ∈ w.data, isWordRune c = true ∧ isUpperRune c = false := by
  rw [WordCount_eq, foldl_incr_keys_mem] at hw
  rcases hw with hw | hw
  · simp [CountMap.keys] at hw
  · obtain ⟨t, ht, rfl⟩ := List.mem_map.1 hw
    obtain ⟨htok, hq⟩ := List.mem_filter.1 ht
    have hq' : MatchNonWord t = false := by simpa using hq
    have hall := (MatchNonWord_eq_false t).1 hq'
    obtain ⟨hne, _⟩ := Tokenize_mem text t htok
    constructor
    · intro e
      have : (ToLower t).data = [] := by rw [e]
      simp only [ToLower, asciiLower, List.map_eq_nil_iff] at this
      exact hne this
    · intro c hc
      simp only [ToLower, asciiLower] at hc
      obtain ⟨d, hd, rfl⟩ := List.mem_map.1 hc
      exact ⟨by rw [isWordRune_toLowerRune]; exact hall d hd, isUpperRune_toLowerRune d⟩

/-- C5, at the key `"cat_1"` of the text `"The CAT_1 - the"`. -/
theorem C5_keys_lowercase_words_witness :
    "cat_1" ∈ (WordCount "The CAT_1 - the").keys
      ∧ "cat_1" ≠ "" ∧ ∀ c ∈ "cat_1".data, isWordRune c = true ∧ isUpperRune c = false :=
  ⟨by decide, C5_keys_lowercase_words "The CAT_1 - the" "cat_1" (by decide)⟩

/-- C6: counting is case-insensitive. For every input text `s`, `WordCount(s)` equals
`WordCount` of `s` with every ASCII upper-case letter replaced by its lower-case letter;
`WordCount("The the THE")` is exactly `{"the": 3}`. -/
theorem C6_case_insensitive :
    (∀ s : String, WordCount s = WordCount (asciiLower s))
      ∧ WordCount "The the THE" = [("the", 3)] := by
  refine ⟨fun s => ?_, by decide⟩
  simp only [WordCount, Tokenize_asciiLower, countWords, List.foldl_map,
    MatchNonWord_asciiLower, ToLower, asciiLower_idem]

/-- C7 fails as stated: `WordCount("well-known, known")` is not the one-entry map
`{"known": 1}`, in whatever order the entries are listed. -/
theorem C7_counterexample :
    ¬ (WordCount "well-known, known").Perm [("known", 1)] := by
  intro h
  have := h.length_eq
  revert this
  decide

/-- C7, amended: the tokenizer splits a hyphenated word at the hyphen; the hyphen and
the comma are dropped and both parts are counted: `WordCount("well-known, known")` is
exactly `{"well": 1, "known": 2}`. -/
theorem C7_hyphen_parts_counted :
    Tokenize "well-known, known" = ["well", "-", "known", ",", "known"]
      ∧ WordCount "well-known, known" = [("well", 1), ("known", 2)] := by
  decide

/-- C8: for every input text, the sum of all values in `WordCount(text)` equals the
number of tokens produced by the tokenizer for the text that contain no non-word
character. -/
theorem C8_total_is_qualifying_count (text : String) :
    (WordCount text).total = ((qualifying text).length : Int) := by
  rw [WordCount_eq, foldl_incr_total, loweredWords, List.length_map]
  simp [CountMap.total]

/-- C9 fails as stated: with a requested count of `3` and a queue of size `5`, the notice
is printed although `5 < 3` is false, it names `10` rather than the requested `3`, and
all `5` entries are extracted. -/
theorem C9_counterexample :
    (PrintTopNFrequentWords 3 (GetFrequencyMap (fun m => m) "a b c d e")).map Printed.notice
        = some (some "There are less words than 10 retrieving 5 instead.")
      ∧ (PrintTopNFrequentWords 3 (GetFrequencyMap (fun m => m) "a b c d e")).map
          (fun out => out.entries.length) = some 5
      ∧ (GetFrequencyMap (fun m => m) "a b c d e").Len = 5
      ∧ ¬ (GetFrequencyMap (fun m => m) "a b c d e").Len < 3 := by
  decide

/-- C9, amended: for every priority queue of size `s` and every requested count `n`,
`PrintTopNFrequentWords` emits the notice if and only if `s < 10` (the constant that the
body uses in place of the requested count); when it does, the notice names `10` and the
actual count `s`, and exactly `s` entries are extracted; otherwise exactly `10` are. A
`WordCount` with 3 distinct words and `n = 10` gives exactly 3 entries and a notice with
actual count 3. -/
theorem C9_notice_iff_fewer_than_ten :
    (∀ (n : Nat) (pq : PriorityQueue),
      ∃ out, PrintTopNFrequentWords n pq = some out
        ∧ (out.notice.isSome = true ↔ pq.Len < 10)
        ∧ (pq.Len < 10 →
            out.notice = some ("There are less words than 10 retrieving "
                ++ Itoa pq.Len ++ " instead.")
              ∧ out.entries.length = pq.Len)
        ∧ (10 ≤ pq.Len → out.entries.length = 10))
      ∧ (WordCount "x y z x").length = 3
      ∧ (PrintTopNFrequentWords 10 (GetFrequencyMap (fun m => m) "x y z x")).map
          Printed.notice = some (some "There are less words than 10 retrieving 3 instead.")
      ∧ (PrintTopNFrequentWords 10 (GetFrequencyMap (fun m => m) "x y z x")).map
          Printed.entries = some [("x", 2), ("z", 1), ("y", 1)] := by
  refine ⟨fun n pq => ?_, by decide, by decide, by decide⟩
  obtain ⟨items, final, hloop, hil⟩ := popLoop_some (min 10 pq.length) pq (Nat.min_le_right _ _)
  rw [PrintTopNFrequentWords_eq, hloop]
  have hlit : "There are less words than " ++ Itoa 10 ++ " retrieving "
      = "There are less words than 10 retrieving " := by decide
  refine ⟨_, rfl, ?_, ?_, ?_⟩
  · simp only [PriorityQueue.Len]
    split <;> simp_all
  · intro hlt
    simp only [PriorityQueue.Len] at hlt ⊢
    refine ⟨?_, ?_⟩
    · rw [if_pos hlt, hlit]
    · simp only [Printed.entries, List.length_map, hil]
      omega
  · intro hge
    simp only [PriorityQueue.Len] at hge
    simp only [Printed.entries, List.length_map, hil]
    omega

/-- C10: a text made only of white space and non-word characters (the empty string
included) yields no qualifying token, and for every text that yields no qualifying token
`WordCount(text)` is the empty mapping, `GetFrequencyMap(text)` is the empty queue, and
`PrintTopNFrequentWords(10, GetFrequencyMap(text))` extracts no entry and prints the
notice with actual count 0. `rng` is the order in which `range` visits the map. -/
theorem C10_no_qualifying_token (rng : CountMap → List (String × Int))
    (hrng : ∀ m, (rng m).Perm m) (text : String) :
    ((∀ c ∈ text.data, isWordRune c = false) → qualifying text = [])
      ∧ (qualifying text = [] →
          WordCount text = []
            ∧ GetFrequencyMap rng text = []
            ∧ PrintTopNFrequentWords 10 (GetFrequencyMap rng text)
                = some { notice := some "There are less words than 10 retrieving 0 instead.",
                         items := [] }) := by
  constructor
  · intro hno
    rw [List.eq_nil_iff_forall_not_mem]
    intro t ht
    obtain ⟨htok, hq⟩ := List.mem_filter.1 ht
    have hq' : MatchNonWord t = false := by simpa using hq
    have hall := (MatchNonWord_eq_false t).1 hq'
    obtain ⟨hne, hsub⟩ := Tokenize_mem text t htok
    obtain ⟨c, hc⟩ := List.exists_mem_of_ne_nil _ hne
    have h1 := hall c hc
    rw [hno c (hsub c hc)] at h1
    exact Bool.false_ne_true h1
  · intro hq
    have hW : WordCount text = [] := by
      rw [WordCount_eq, loweredWords, hq]
      rfl
    have hG : GetFrequencyMap rng text = [] := by
      unfold GetFrequencyMap
      simp only [hW]
      rw [List.Perm.eq_nil (hrng [])]
      rfl
    refine ⟨hW, hG, ?_⟩
    rw [hG]
    decide

/-- C10, at the text `" , - !"` with the map visited in insertion order. -/
theorem C10_no_qualifying_token_witness :
    (∀ m : CountMap, ((fun m => m) m).Perm m)
      ∧ (∀ c ∈ " , - !".data, isWordRune c = false)
      ∧ qualifying " , - !" = []
      ∧ WordCount " , - !" = []
      ∧ GetFrequencyMap (fun m => m) " , - !" = []
      ∧ PrintTopNFrequentWords 10 (GetFrequencyMap (fun m => m) " , - !")
          = some { notice := some "There are less words than 10 retrieving 0 instead.",
                   items := [] } :=
  have h := C10_no_qualifying_token (fun m => m) (fun m => List.Perm.refl m) " , - !"
  have hno : ∀ c ∈ " , - !".data, isWordRune c = false := by decide
  ⟨fun m => List.Perm.refl m, hno, h.1 hno, h.2 (h.1 hno)⟩

/-! ## The heap property in parent form -/

theorem IsHeap_iff_IsMaxHeap (pq : PriorityQueue) : IsHeap pq ↔ IsMaxHeap pq := by
  constructor
  · intro h i hpos hlt
    have hh := h ((i - 1) / 2)
    rcases Nat.even_or_odd i with he | ho
    · obtain ⟨r, hr⟩ := he
      have e : 2 * ((i - 1) / 2) + 2 = i := by omega
      have := hh.2 (by omega)
      rwa [e] at this
    · obtain ⟨r, hr⟩ := ho
      have e : 2 * ((i - 1) / 2) + 1 = i := by omega
      have := hh.1 (by omega)
      rwa [e] at this
  · intro h k
    constructor
    · intro hc
      have := h (2 * k + 1) (by omega) hc
      have e : (2 * k + 1 - 1) / 2 = k := by omega
      rwa [e] at this
    · intro hc
      have := h (2 * k + 2) (by omega) hc
      have e : (2 * k + 2 - 1) / 2 = k := by omega
      rwa [e] at this

theorem heap_Pop_eq_none (pq : PriorityQueue) : heap.Pop pq = none ↔ pq = [] := by
  constructor
  · intro h
    by_contra hne
    obtain ⟨item, rest, hpop, _⟩ := heap_Pop_some pq hne
    rw [hpop] at h
    exact Option.noConfusion h
  · intro h
    subst h
    rfl

/-- C12: the queue returned by `GetFrequencyMap(text)` satisfies the max-heap property
(at every slot `i > 0` the count at the parent slot `(i-1)/2` is at least the count at
`i`), and every `heap.Pop` on a non-empty queue that satisfies the property succeeds and
leaves a queue that satisfies it again. -/
theorem C12_heap_invariant (rng : CountMap → List (String × Int)) (text : String)
    (pq : PriorityQueue) (hheap : IsMaxHeap pq) (hne : pq ≠ []) :
    IsMaxHeap (GetFrequencyMap rng text)
      ∧ ∃ item rest, heap.Pop pq = some (item, rest) ∧ IsMaxHeap rest := by
  refine ⟨(IsHeap_iff_IsMaxHeap _).1 (GetFrequencyMap_isHeap rng text), ?_⟩
  obtain ⟨item, rest, hpop, hrest, _, _, _⟩ :=
    heap_Pop_spec pq ((IsHeap_iff_IsMaxHeap pq).2 hheap) hne
  exact ⟨item, rest, hpop, (IsHeap_iff_IsMaxHeap rest).1 hrest⟩

/-- C12, at the text `"b a b c"` and at the queue built from it. -/
theorem C12_heap_invariant_witness :
    IsMaxHeap (GetFrequencyMap (fun m => m) "b a b c")
      ∧ GetFrequencyMap (fun m => m) "b a b c" ≠ []
      ∧ IsMaxHeap (GetFrequencyMap (fun m => m) "b a b c")
      ∧ ∃ item rest, heap.Pop (GetFrequencyMap (fun m => m) "b a b c") = some (item, rest)
          ∧ IsMaxHeap rest :=
  have hh : IsMaxHeap (GetFrequencyMap (fun m => m) "b a b c") :=
    (IsHeap_iff_IsMaxHeap _).1 (GetFrequencyMap_isHeap _ _)
  have hne : GetFrequencyMap (fun m => m) "b a b c" ≠ [] := by decide
  ⟨hh, hne, C12_heap_invariant (fun m => m) "b a b c" _ hh hne⟩

/-- C13: for every non-empty queue that satisfies the max-heap property, `heap.Pop`
returns an item whose count is at least the count of every item of the queue, and the
queue afterwards holds exactly the previous entries minus the returned one: it is one
item shorter, and the returned `(word, count)` together with the remaining
`(word, count)` pairs is a rearrangement of the previous pairs. -/
theorem C13_extract_maximum (pq : PriorityQueue) (hheap : IsMaxHeap pq) (hne : pq ≠ []) :
    ∃ item rest, heap.Pop pq = some (item, rest)
      ∧ (∀ b ∈ pq, b.priority ≤ item.priority)
      ∧ rest.length + 1 = pq.length
      ∧ (item.entry :: rest.map Item.entry).Perm (pq.map Item.entry) := by
  obtain ⟨item, rest, hpop, _, hlen, hperm, hmax⟩ :=
    heap_Pop_spec pq ((IsHeap_iff_IsMaxHeap pq).2 hheap) hne
  exact ⟨item, rest, hpop, hmax, hlen, hperm⟩

/-- C13, at the three-item heap `c:5, a:2, b:1`. -/
theorem C13_extract_maximum_witness :
    IsMaxHeap [⟨"c", 5, 0⟩, ⟨"a", 2, 1⟩, ⟨"b", 1, 2⟩]
      ∧ ([⟨"c", 5, 0⟩, ⟨"a", 2, 1⟩, ⟨"b", 1, 2⟩] : PriorityQueue) ≠ []
      ∧ ∃ item rest, heap.Pop [⟨"c", 5, 0⟩, ⟨"a", 2, 1⟩, ⟨"b", 1, 2⟩] = some (item, rest)
          ∧ (∀ b ∈ ([⟨"c", 5, 0⟩, ⟨"a", 2, 1⟩, ⟨"b", 1, 2⟩] : PriorityQueue),
              b.priority ≤ item.priority)
          ∧ rest.length + 1 = ([⟨"c", 5, 0⟩, ⟨"a", 2, 1⟩, ⟨"b", 1, 2⟩] : PriorityQueue).length
          ∧ (item.entry :: rest.map Item.entry).Perm
              (([⟨"c", 5, 0⟩, ⟨"a", 2, 1⟩, ⟨"b", 1, 2⟩] : PriorityQueue).map Item.entry) :=
  have hh : IsMaxHeap [⟨"c", 5, 0⟩, ⟨"a", 2, 1⟩, ⟨"b", 1, 2⟩] := by
    intro i hpos hlt
    have hi : i = 1 ∨ i = 2 := by
      simp only [List.length_cons, List.length_nil] at hlt
      omega
    rcases hi with e | e <;> subst e <;> decide
  have hne : ([⟨"c", 5, 0⟩, ⟨"a", 2, 1⟩, ⟨"b", 1, 2⟩] : PriorityQueue) ≠ [] := by decide
  ⟨hh, hne, C13_extract_maximum _ hh hne⟩

/-- C14: for every input text, the queue returned by `GetFrequencyMap(text)` holds
exactly one item per key of `WordCount(text)`, with the priority of the item equal to the
count of the key: its length is the number of distinct words, its `(value, priority)`
pairs are a rearrangement of the entries of the mapping, and no word occurs twice.
`rng` is the order in which `range` visits the map. -/
theorem C14_queue_holds_the_entries (rng : CountMap → List (String × Int))
    (hrng : ∀ m, (rng m).Perm m) (text : String) :
    (GetFrequencyMap rng text).Len = (WordCount text).keys.length
      ∧ ((GetFrequencyMap rng text).map Item.entry).Perm (WordCount text)
      ∧ ((GetFrequencyMap rng text).map Item.value).Nodup := by
  have hperm : ((GetFrequencyMap rng text).map Item.entry).Perm (WordCount text) :=
    (GetFrequencyMap_entries_perm rng text).trans (hrng _)
  refine ⟨?_, hperm, ?_⟩
  · have := hperm.length_eq
    simpa [PriorityQueue.Len, CountMap.keys] using this
  · have h1 := (hperm.map Prod.fst).nodup_iff.2 (WordCount_keys_nodup text)
    rw [List.map_map] at h1
    exact h1

/-- C14, at the text `"b a b c"` with the map visited in reverse insertion order. -/
theorem C14_queue_holds_the_entries_witness :
    (∀ m : CountMap, (List.reverse m).Perm m)
      ∧ (GetFrequencyMap List.reverse "b a b c").Len = (WordCount "b a b c").keys.length
      ∧ ((GetFrequencyMap List.reverse "b a b c").map Item.entry).Perm (WordCount "b a b c")
      ∧ ((GetFrequencyMap List.reverse "b a b c").map Item.value).Nodup :=
  ⟨fun m => List.reverse_perm m,
    C14_queue_holds_the_entries List.reverse (fun m => List.reverse_perm m) "b a b c"⟩

/-- C15: the caller-supplied `n` is ignored. For every queue and every two values `n1`
and `n2`, `PrintTopNFrequentWords(n1, pq)` and `PrintTopNFrequentWords(n2, pq)` produce
the same notice and the same sequence of extracted entries, and that sequence has
`min(10, size of pq)` elements. -/
theorem C15_n_is_ignored (pq : PriorityQueue) (n1 n2 : Nat) :
    PrintTopNFrequentWords n1 pq = PrintTopNFrequentWords n2 pq
      ∧ ∃ out, PrintTopNFrequentWords n1 pq = some out
          ∧ out.entries.length = min 10 pq.Len := by
  refine ⟨by rw [PrintTopNFrequentWords_eq, PrintTopNFrequentWords_eq], ?_⟩
  obtain ⟨items, final, hloop, hil⟩ := popLoop_some (min 10 pq.length) pq (Nat.min_le_right _ _)
  rw [PrintTopNFrequentWords_eq, hloop]
  exact ⟨_, rfl, by simp [Printed.entries, hil, PriorityQueue.Len]⟩

/-! ## Safety of the extraction loop -/

theorem PriorityQueue_Pop_eq_none (pq : PriorityQueue) :
    PriorityQueue.Pop pq = none ↔ pq = [] := by
  unfold PriorityQueue.Pop
  cases h : pq.getLast? with
  | none => simpa using List.getLast?_eq_none_iff.1 h
  | some item =>
    constructor
    · intro e
      exact Option.noConfusion e
    · intro e
      subst e
      simp at h

/-- Every queue on which the loop calls `heap.Pop` is non-empty, when the loop runs at
most as many iterations as the queue has items. -/
theorem popLoopQueues_nonempty (k : Nat) (pq : PriorityQueue) (hk : k ≤ pq.length) :
    ∀ q ∈ popLoopQueues k pq, q ≠ [] := by
  induction k generalizing pq with
  | zero => intro q hq; simp [popLoopQueues] at hq
  | succ k ih =>
    have hne : pq ≠ [] := by
      intro e; subst e; simp at hk
    obtain ⟨item, rest, hpop, _, hlen, _, _⟩ := heap_Pop_some pq hne
    intro q hq
    simp only [popLoopQueues, hpop, List.mem_cons] at hq
    rcases hq with e | hq
    · exact e ▸ hne
    · exact ih rest (by omega) q hq

theorem popLoopQueues_length (k : Nat) (pq : PriorityQueue) (hk : k ≤ pq.length) :
    (popLoopQueues k pq).length = k := by
  induction k generalizing pq with
  | zero => rfl
  | succ k ih =>
    have hne : pq ≠ [] := by
      intro e; subst e; simp at hk
    obtain ⟨item, rest, hpop, _, hlen, _, _⟩ := heap_Pop_some pq hne
    simp only [popLoopQueues, hpop, List.length_cons, ih rest (by omega)]

/-- The loop fails exactly when it reaches an iteration with an empty queue. -/
theorem popLoop_eq_none_iff (k : Nat) (pq : PriorityQueue) :
    popLoop k pq = none ↔ ∃ q ∈ popLoopQueues k pq, q = [] := by
  induction k generalizing pq with
  | zero => simp [popLoop, popLoopQueues]
  | succ k ih =>
    cases hpop : heap.Pop pq with
    | none =>
      have hnil := (heap_Pop_eq_none pq).1 hpop
      simp only [popLoop, popLoopQueues, hpop, true_iff]
      exact ⟨pq, List.mem_cons_self _ _, hnil⟩
    | some r =>
      obtain ⟨item, rest⟩ := r
      have hne : pq ≠ [] := fun e => by
        rw [(heap_Pop_eq_none pq).2 e] at hpop
        exact Option.noConfusion hpop
      simp only [popLoop, popLoopQueues, hpop]
      constructor
      · intro h
        have hrest : popLoop k rest = none := by
          cases hr : popLoop k rest with
          | none => rfl
          | some v => rw [hr] at h; exact Option.noConfusion h
        obtain ⟨q, hq, hqe⟩ := (ih rest).1 hrest
        exact ⟨q, List.mem_cons_of_mem _ hq, hqe⟩
      · rintro ⟨q, hq, hqe⟩
        rcases List.mem_cons.1 hq with e | hq'
        · exact absurd (e ▸ hqe) hne
        · rw [(ih rest).2 ⟨q, hq', hqe⟩]

/-- C18: for every queue (the empty one included) and every `n`,
`PrintTopNFrequentWords` never calls `heap.Pop` on an empty queue. `heap.Pop` and
`PriorityQueue.Pop` fail (index out of range) exactly on the empty queue, and the loop
fails exactly when it reaches an iteration with an empty queue; the loop of
`PrintTopNFrequentWords` runs `min(10, size)` iterations, the queue is non-empty at each
of them, and the run ends normally. -/
theorem C18_no_pop_on_empty (n : Nat) (pq : PriorityQueue) :
    (∃ out, PrintTopNFrequentWords n pq = some out)
      ∧ (popLoopQueues (min 10 pq.Len) pq).length = min 10 pq.Len
      ∧ (∀ q ∈ popLoopQueues (min 10 pq.Len) pq, q ≠ [] ∧ (heap.Pop q).isSome = true)
      ∧ (∀ q : PriorityQueue, heap.Pop q = none ↔ q = [])
      ∧ (∀ q : PriorityQueue, PriorityQueue.Pop q = none ↔ q = [])
      ∧ (∀ (k : Nat) (q : PriorityQueue),
          popLoop k q = none ↔ ∃ x ∈ popLoopQueues k q, x = []) := by
  refine ⟨?_, popLoopQueues_length _ pq (Nat.min_le_right _ _), ?_, heap_Pop_eq_none,
    PriorityQueue_Pop_eq_none, popLoop_eq_none_iff⟩
  · obtain ⟨items, final, hloop, _⟩ :=
      popLoop_some (min 10 pq.length) pq (Nat.min_le_right _ _)
    rw [PrintTopNFrequentWords_eq, hloop]
    exact ⟨_, rfl⟩
  · intro q hq
    have hne := popLoopQueues_nonempty _ pq (Nat.min_le_right _ _) q hq
    refine ⟨hne, ?_⟩
    obtain ⟨item, rest, hpop, _⟩ := heap_Pop_some q hne
    rw [hpop]
    rfl

/-! ## Counts are positive -/

theorem incr_pos (m : CountMap) (key : String) (h : ∀ e ∈ m, 1 ≤ e.2) :
    ∀ e ∈ m.incr key, 1 ≤ e.2 := by
  induction m with
  | nil =>
    intro e he
    simp only [CountMap.incr, List.mem_singleton] at he
    subst he
    exact le_refl _
  | cons x rest ih =>
    obtain ⟨k, c⟩ := x
    intro e he
    simp only [CountMap.incr] at he
    have hc : 1 ≤ c := h (k, c) (List.mem_cons_self _ _)
    have hrest : ∀ e ∈ rest, 1 ≤ e.2 := fun e he => h e (List.mem_cons_of_mem _ he)
    split at he
    · rcases List.mem_cons.1 he with e1 | e2
      · subst e1
        show 1 ≤ c + 1
        omega
      · exact hrest e e2
    · rcases List.mem_cons.1 he with e1 | e2
      · subst e1
        exact hc
      · exact ih hrest e e2

theorem foldl_incr_pos (m : CountMap) (ws : List String) (h : ∀ e ∈ m, 1 ≤ e.2) :
    ∀ e ∈ ws.foldl CountMap.incr m, 1 ≤ e.2 := by
  induction ws generalizing m with
  | nil => exact h
  | cons w ws ih => exact ih _ (incr_pos m w h)

theorem WordCount_pos (text : String) : ∀ e ∈ WordCount text, 1 ≤ e.2 := by
  rw [WordCount_eq]
  exact foldl_incr_pos [] _ (fun e he => by simp at he)

/-- C20: for every input text, every value stored in `WordCount(text)` is at least 1
(no key is present with count 0), and every item of `GetFrequencyMap(text)` has a
priority of at least 1. `rng` is the order in which `range` visits the map. -/
theorem C20_counts_at_least_one (rng : CountMap → List (String × Int))
    (hrng : ∀ m, (rng m).Perm m) (text : String) :
    (∀ w c, (w, c) ∈ WordCount text → 1 ≤ c)
      ∧ (∀ item ∈ GetFrequencyMap rng text, 1 ≤ item.priority) := by
  refine ⟨fun w c h => WordCount_pos text (w, c) h, ?_⟩
  intro item hitem
  have h1 : item.entry ∈ (GetFrequencyMap rng text).map Item.entry :=
    List.mem_map_of_mem _ hitem
  have h2 : item.entry ∈ WordCount text :=
    ((GetFrequencyMap_entries_perm rng text).trans (hrng _)).subset h1
  exact WordCount_pos text _ h2

/-- C20, at the text `"b a b c"` with the map visited in reverse insertion order. -/
theorem C20_counts_at_least_one_witness :
    (∀ m : CountMap, (List.reverse m).Perm m)
      ∧ (∀ w c, (w, c) ∈ WordCount "b a b c" → 1 ≤ c)
      ∧ (∀ item ∈ GetFrequencyMap List.reverse "b a b c", 1 ≤ item.priority) :=
  ⟨fun m => List.reverse_perm m,
    C20_counts_at_least_one List.reverse (fun m => List.reverse_perm m) "b a b c"⟩

/-- C16: the order among tied words is not fixed by the input. The text `"a b"` gives a
mapping with the two equal-count words `a` and `b`; visiting the map in insertion order
or in reverse order (both are enumerations of its entries) makes
`PrintTopNFrequentWords` extract the words in different orders. -/
theorem C16_tie_order_depends_on_iteration :
    ∃ (text : String) (rng1 rng2 : CountMap → List (String × Int)),
      (∀ m, (rng1 m).Perm m) ∧ (∀ m, (rng2 m).Perm m)
        ∧ (∃ w1 w2 c, w1 ≠ w2 ∧ (w1, c) ∈ WordCount text ∧ (w2, c) ∈ WordCount text)
        ∧ (PrintTopNFrequentWords 10 (GetFrequencyMap rng1 text)).map Printed.words
            = some ["a", "b"]
        ∧ (PrintTopNFrequentWords 10 (GetFrequencyMap rng2 text)).map Printed.words
            = some ["b", "a"]
        ∧ (PrintTopNFrequentWords 10 (GetFrequencyMap rng1 text)).map Printed.words
            ≠ (PrintTopNFrequentWords 10 (GetFrequencyMap rng2 text)).map Printed.words :=
  ⟨"a b", fun m => m, List.reverse, fun m => List.Perm.refl m, fun m => List.reverse_perm m,
    ⟨"a", "b", 1, by decide, by decide, by decide⟩, by decide, by decide, by decide⟩

/-! ## The extracted counts do not depend on the layout of the heap -/

/-- Two non-increasing lists of the same length that are each the largest elements of
the same collection are equal. -/
theorem top_counts_unique (l1 r1 l2 r2 : List Int) (hlen : l1.length = l2.length)
    (hp : (l1 ++ r1).Perm (l2 ++ r2))
    (hs1 : l1.Pairwise (fun a b => b ≤ a)) (hs2 : l2.Pairwise (fun a b => b ≤ a))
    (hb1 : ∀ a ∈ l1, ∀ b ∈ r1, b ≤ a) (hb2 : ∀ a ∈ l2, ∀ b ∈ r2, b ≤ a) :
    l1 = l2 := by
  have key : ∀ l r : List Int, l.Pairwise (fun a b => b ≤ a) →
      (∀ a ∈ l, ∀ b ∈ r, b ≤ a) →
      List.Sorted (fun a b : Int => a ≥ b) (l ++ r.insertionSort (fun a b : Int => a ≥ b)) := by
    intro l r hs hb
    refine List.pairwise_append.2 ⟨hs, List.sorted_insertionSort _ r, ?_⟩
    intro a ha b hb'
    exact hb a ha b ((List.perm_insertionSort _ r).subset hb')
  have hperm : (l1 ++ r1.insertionSort (fun a b : Int => a ≥ b)).Perm
      (l2 ++ r2.insertionSort (fun a b : Int => a ≥ b)) :=
    ((List.perm_insertionSort _ r1).append_left l1).trans
      (hp.trans ((List.perm_insertionSort _ r2).append_left l2).symm)
  have heq := List.eq_of_perm_of_sorted hperm (key l1 r1 hs1 hb1) (key l2 r2 hs2 hb2)
  exact (List.append_inj heq hlen).1

/-- The counts extracted by `PrintTopNFrequentWords` from a max-heap: the `min 10 size`
largest priorities of the queue, in non-increasing order. -/
theorem PrintTopNFrequentWords_counts (n : Nat) (pq : PriorityQueue) (h : IsHeap pq) :
    ∃ out rest, PrintTopNFrequentWords n pq = some out
      ∧ out.counts.length = min 10 pq.length
      ∧ (out.counts ++ rest).Perm (pq.map Item.priority)
      ∧ out.counts.Pairwise (fun a b => b ≤ a)
      ∧ ∀ a ∈ out.counts, ∀ b ∈ rest, b ≤ a := by
  obtain ⟨out, final, hout, hlen, hperm, hsorted, hbound⟩ :=
    PrintTopNFrequentWords_spec n pq h
  have hc : out.counts = out.items.map Item.priority := by
    simp only [Printed.counts, Printed.entries, List.map_map]
    rfl
  refine ⟨out, final.map Item.priority, hout, ?_, ?_, ?_, ?_⟩
  · rw [hc, List.length_map]; exact hlen
  · have := hperm.map Prod.snd
    simp only [List.map_map, List.map_append] at this
    rw [hc]
    exact this
  · rw [hc, List.pairwise_map]; exact hsorted
  · rw [hc]
    intro a ha b hb
    obtain ⟨x, hx, rfl⟩ := List.mem_map.1 ha
    obtain ⟨y, hy, rfl⟩ := List.mem_map.1 hb
    exact hbound x hx y hy

/-- C19: the sequence of counts in the ranked output does not depend on the order in
which the map entries are enumerated. For every word-count mapping `counts` and every
two orders `rng1 counts` and `rng2 counts` of its entries used to fill the queue, the two
runs of `PrintTopNFrequentWords` end normally, extract the same sequence of counts and
print the same notice. -/
theorem C19_counts_independent_of_order (rng1 rng2 : CountMap → List (String × Int))
    (counts : CountMap) (h1 : (rng1 counts).Perm counts) (h2 : (rng2 counts).Perm counts)
    (n : Nat) :
    ∃ out1 out2,
      PrintTopNFrequentWords n (heap.Init (fillQueue (rng1 counts) 0)) = some out1
        ∧ PrintTopNFrequentWords n (heap.Init (fillQueue (rng2 counts) 0)) = some out2
        ∧ out1.counts = out2.counts
        ∧ out1.notice = out2.notice := by
  have hq : ∀ rng : CountMap → List (String × Int), (rng counts).Perm counts →
      ((heap.Init (fillQueue (rng counts) 0)).map Item.priority).Perm (counts.map Prod.snd)
        ∧ (heap.Init (fillQueue (rng counts) 0)).length = counts.length := by
    intro rng hr
    have hp := Init_entries_perm (fillQueue (rng counts) 0)
    rw [fillQueue_entries] at hp
    have hp2 := (hp.trans hr).map Prod.snd
    rw [List.map_map] at hp2
    refine ⟨hp2, ?_⟩
    rw [Init_length, fillQueue_length, hr.length_eq]
  obtain ⟨hp1, hl1⟩ := hq rng1 h1
  obtain ⟨hp2, hl2⟩ := hq rng2 h2
  obtain ⟨out1, rest1, ho1, hlen1, hperm1, hs1, hb1⟩ :=
    PrintTopNFrequentWords_counts n _ (Init_isHeap (fillQueue (rng1 counts) 0))
  obtain ⟨out2, rest2, ho2, hlen2, hperm2, hs2, hb2⟩ :=
    PrintTopNFrequentWords_counts n _ (Init_isHeap (fillQueue (rng2 counts) 0))
  refine ⟨out1, out2, ho1, ho2, ?_, ?_⟩
  · apply top_counts_unique _ rest1 _ rest2
    · rw [hlen1, hlen2, hl1, hl2]
    · exact (hperm1.trans hp1).trans (hperm2.trans hp2).symm
    · exact hs1
    · exact hs2
    · exact hb1
    · exact hb2
  · rw [PrintTopNFrequentWords_eq] at ho1 ho2
    rw [hl1] at ho1
    rw [hl2] at ho2
    split at ho1
    · exact Option.noConfusion ho1
    · split at ho2
      · exact Option.noConfusion ho2
      · simp only [Option.some.injEq] at ho1 ho2
        rw [← ho1, ← ho2]

/-- C19, at the mapping `a:1, b:3, c:1, d:2` enumerated in the given and in the reverse
order. -/
theorem C19_counts_independent_of_order_witness :
    (([("a", 1), ("b", 3), ("c", 1), ("d", 2)] : CountMap)).Perm
        [("a", 1), ("b", 3), ("c", 1), ("d", 2)]
      ∧ (List.reverse ([("a", 1), ("b", 3), ("c", 1), ("d", 2)] : CountMap)).Perm
        [("a", 1), ("b", 3), ("c", 1), ("d", 2)]
      ∧ ∃ out1 out2,
        PrintTopNFrequentWords 3
            (heap.Init (fillQueue ((fun m => m) [("a", 1), ("b", 3), ("c", 1), ("d", 2)]) 0))
            = some out1
          ∧ PrintTopNFrequentWords 3
              (heap.Init (fillQueue (List.reverse [("a", 1), ("b", 3), ("c", 1), ("d", 2)]) 0))
              = some out2
          ∧ out1.counts = out2.counts
          ∧ out1.notice = out2.notice :=
  ⟨List.Perm.refl _, List.reverse_perm _,
    C19_counts_independent_of_order (fun m => m) List.reverse
      [("a", 1), ("b", 3), ("c", 1), ("d", 2)] (List.Perm.refl _) (List.reverse_perm _) 3⟩

/-! ## The worked example -/

/-- C11 fails as stated: for `"the cat sat on the mat the cat ran"` and `N = 2` the
extracted sequence has six elements (here with the map visited in insertion order), not
the two elements `[("the", 3), ("cat", 2)]`. -/
theorem C11_counterexample :
    (PrintTopNFrequentWords 2
        (GetFrequencyMap (fun m => m) "the cat sat on the mat the cat ran")).map Printed.entries
      = some [("the", 3), ("cat", 2), ("mat", 1), ("on", 1), ("sat", 1), ("ran", 1)]
      ∧ (PrintTopNFrequentWords 2
        (GetFrequencyMap (fun m => m) "the cat sat on the mat the cat ran")).map Printed.entries
      ≠ some [("the", 3), ("cat", 2)] := by
  decide

/-- C11, amended: for the text `"the cat sat on the mat the cat ran"` and `N = 2`, the
requested `N` is not used: whatever the iteration order of the map, the ranked result of
`PrintTopNFrequentWords(2, GetFrequencyMap(text))` has `min(10, 6) = 6` elements, the
six entries of `WordCount(text)`; its first two elements are `("the", 3)` and
`("cat", 2)`, and the notice tells that 6 words are retrieved. -/
theorem C11_worked_example (rng : CountMap → List (String × Int))
    (hrng : ∀ m, (rng m).Perm m) :
    ∃ out, PrintTopNFrequentWords 2
          (GetFrequencyMap rng "the cat sat on the mat the cat ran") = some out
      ∧ out.entries.length = 6
      ∧ out.entries.take 2 = [("the", 3), ("cat", 2)]
      ∧ out.entries.Perm (WordCount "the cat sat on the mat the cat ran")
      ∧ out.notice = some "There are less words than 10 retrieving 6 instead." := by
  have hW : WordCount "the cat sat on the mat the cat ran"
      = [("the", 3), ("cat", 2), ("sat", 1), ("on", 1), ("mat", 1), ("ran", 1)] := by decide
  have hqperm := (GetFrequencyMap_entries_perm rng "the cat sat on the mat the cat ran").trans
    (hrng _)
  have hqlen : (GetFrequencyMap rng "the cat sat on the mat the cat ran").length = 6 := by
    have := hqperm.length_eq
    rw [hW, List.length_map] at this
    exact this
  obtain ⟨out, final, hout, hlen, hperm, hsorted, _⟩ := PrintTopNFrequentWords_spec 2 _
    (GetFrequencyMap_isHeap rng "the cat sat on the mat the cat ran")
  rw [hqlen] at hlen
  have hfinal : final = [] := by
    have := hperm.length_eq
    rw [List.length_map, List.length_map, List.length_append, hlen, hqlen] at this
    exact List.length_eq_zero.1 (by omega)
  subst hfinal
  rw [List.append_nil] at hperm
  have hent : out.entries.Perm (WordCount "the cat sat on the mat the cat ran") :=
    hperm.trans hqperm
  have hentlen : out.entries.length = 6 := by
    simp only [Printed.entries, List.length_map]
    exact hlen
  have hcounts : out.entries.map Prod.snd = [3, 2, 1, 1, 1, 1] := by
    apply List.eq_of_perm_of_sorted (r := fun a b : Int => a ≥ b)
    · have := hent.map Prod.snd
      rw [hW] at this
      exact this
    · simp only [Printed.entries, List.map_map]
      exact (List.pairwise_map (l := out.items)).2 hsorted
    · decide
  have hnotice : out.notice
      = some "There are less words than 10 retrieving 6 instead." := by
    rw [PrintTopNFrequentWords_eq] at hout
    split at hout
    · exact Option.noConfusion hout
    · simp only [Option.some.injEq] at hout
      rw [← hout, hqlen]
      show (if 6 < 10 then
          some ("There are less words than " ++ Itoa 10 ++ " retrieving " ++ Itoa 6
            ++ " instead.")
        else none) = some "There are less words than 10 retrieving 6 instead."
      decide
  refine ⟨out, hout, hentlen, ?_, hent, hnotice⟩
  rw [hW] at hent
  generalize out.entries = l at hent hcounts hentlen
  match l, hent, hcounts, hentlen with
  | a :: b :: rest, hent, hcounts, _ =>
    have ha : a ∈ a :: b :: rest := List.mem_cons_self _ _
    have hb : b ∈ a :: b :: rest := List.mem_cons_of_mem _ (List.mem_cons_self _ _)
    have ha' := hent.subset ha
    have hb' := hent.subset hb
    simp only [List.map_cons, List.cons.injEq] at hcounts
    obtain ⟨ha2, hb2, _⟩ := hcounts
    simp only [List.mem_cons, List.mem_singleton, List.not_mem_nil, or_false] at ha' hb'
    have hae : a = ("the", 3) := by
      rcases ha' with e | e | e | e | e | e <;> subst e <;>
        first | rfl | exact absurd ha2 (by decide)
    have hbe : b = ("cat", 2) := by
      rcases hb' with e | e | e | e | e | e <;> subst e <;>
        first | rfl | exact absurd hb2 (by decide)
    rw [hae, hbe]
    rfl

/-- C11 amended, with the map visited in reverse insertion order. -/
theorem C11_worked_example_witness :
    (∀ m : CountMap, (List.reverse m).Perm m)
      ∧ ∃ out, PrintTopNFrequentWords 2
            (GetFrequencyMap List.reverse "the cat sat on the mat the cat ran") = some out
        ∧ out.entries.length = 6
        ∧ out.entries.take 2 = [("the", 3), ("cat", 2)]
        ∧ out.entries.Perm (WordCount "the cat sat on the mat the cat ran")
        ∧ out.notice = some "There are less words than 10 retrieving 6 instead." :=
  ⟨fun m => List.reverse_perm m, C11_worked_example List.reverse (fun m => List.reverse_perm m)⟩

/-! ## Rendering -/

theorem toDigitsCore_length (b fuel n : Nat) (ds : List Char) :
    ds.length ≤ (Nat.toDigitsCore b fuel n ds).length
      ∧ (0 < fuel → ds.length + 1 ≤ (Nat.toDigitsCore b fuel n ds).length)
      ∧ (1 < fuel → n / b ≠ 0 → ds.length + 2 ≤ (Nat.toDigitsCore b fuel n ds).length) := by
  induction fuel generalizing n ds with
  | zero => exact ⟨le_refl _, fun h => absurd h (by omega), fun h => absurd h (by omega)⟩
  | succ fuel ih =>
    simp only [Nat.toDigitsCore]
    split
    · rename_i h0
      refine ⟨by simp, fun _ => by simp, fun _ hne => absurd h0 hne⟩
    · have h := ih (n / b) (Nat.digitChar (n % b) :: ds)
      simp only [List.length_cons] at h
      refine ⟨by omega, fun _ => by omega, fun hf _ => ?_⟩
      have := h.2.1 (by omega)
      omega

theorem repr_length_pos (n : Nat) : 1 ≤ (Nat.repr n).length := by
  have := (toDigitsCore_length 10 (n + 1) n []).2.1 (by omega)
  simpa [Nat.repr, Nat.toDigits, List.asString] using this

theorem repr_length_two (n : Nat) (h : 10 ≤ n) : 2 ≤ (Nat.repr n).length := by
  have := (toDigitsCore_length 10 (n + 1) n []).2.2 (by omega) (by omega)
  simpa [Nat.repr, Nat.toDigits, List.asString] using this

/-- On a non-negative number the verb `%.2d` is padding with zeros to two digits. -/
theorem fmtD2_eq_zeroPadLeft (k : Int) (hk : 0 ≤ k) :
    fmtD2 k = zeroPadLeft 2 (Nat.repr k.toNat) := by
  have habs : k.natAbs = k.toNat := by omega
  have hpos := repr_length_pos k.toNat
  simp only [fmtD2, habs, zeroPadLeft, if_neg (not_lt.2 hk)]
  by_cases hlt : (Nat.repr k.toNat).length < 2
  · have h1 : 2 - (Nat.repr k.toNat).length = 1 := by omega
    rw [if_pos hlt, h1]
    rfl
  · have h0 : 2 - (Nat.repr k.toNat).length = 0 := by omega
    rw [if_neg hlt, h0]
    rfl

/-- The loop only pops entries of the queue: popped and remaining entries are together
the entries of the initial queue. -/
theorem popLoop_entries_perm (k : Nat) (pq : PriorityQueue) (hk : k ≤ pq.length) :
    ∃ items final, popLoop k pq = some (items, final)
      ∧ ((items ++ final).map Item.entry).Perm (pq.map Item.entry) := by
  induction k generalizing pq with
  | zero => exact ⟨[], pq, rfl, List.Perm.refl _⟩
  | succ k ih =>
    have hne : pq ≠ [] := by
      intro e; subst e; simp at hk
    obtain ⟨item, rest, hpop, _, hlen, _, hperm⟩ := heap_Pop_some pq hne
    obtain ⟨items, final, hloop, hp2⟩ := ih rest (by omega)
    refine ⟨item :: items, final, by simp only [popLoop, hpop, hloop], ?_⟩
    simp only [List.cons_append, List.map_cons]
    exact (List.Perm.cons _ hp2).trans hperm

/-- C17: every extracted entry `(word, count)` is rendered as the decimal count padded
with zeros on the left to at least 2 digits, followed by `:`, the word and a single
space, and the entries appear in extraction order after the notice line. A count below
10 gets one leading zero; a count of 10 or more (100 and more included) is printed in
full. The counts of a queue are non-negative (`hnonneg`). -/
theorem C17_rendering (n : Nat) (pq : PriorityQueue)
    (hnonneg : ∀ item ∈ pq, 0 ≤ item.priority) :
    (∃ out, PrintTopNFrequentWords n pq = some out
      ∧ out.stdout = out.noticeLine ++ String.join (out.entries.map renderEntry))
      ∧ (∀ c : Nat, c < 10 → zeroPadLeft 2 (Nat.repr c) = "0" ++ Nat.repr c)
      ∧ (∀ c : Nat, 10 ≤ c → zeroPadLeft 2 (Nat.repr c) = Nat.repr c)
      ∧ renderEntry ("the", 3) = "03:the "
      ∧ renderEntry ("cat", 12) = "12:cat "
      ∧ renderEntry ("a", 123) = "123:a "
      ∧ (PrintTopNFrequentWords 2
          (GetFrequencyMap (fun m => m) "the cat sat on the mat the cat ran")).map
            Printed.stdout
          = some ("There are less words than 10 retrieving 6 instead.\n"
              ++ "03:the 02:cat 01:mat 01:on 01:sat 01:ran ") := by
  refine ⟨?_, ?_, ?_, by decide, by decide, by decide, by decide⟩
  · obtain ⟨items, final, hloop, hperm⟩ :=
      popLoop_entries_perm (min 10 pq.length) pq (Nat.min_le_right _ _)
    rw [PrintTopNFrequentWords_eq, hloop]
    refine ⟨_, rfl, ?_⟩
    simp only [Printed.stdout, Printed.noticeLine, Printed.entries, List.map_map]
    congr 2
    apply List.map_congr_left
    intro item hitem
    have h1 : item.entry ∈ (items ++ final).map Item.entry :=
      List.mem_map_of_mem _ (List.mem_append_left _ hitem)
    obtain ⟨b, hb, hbe⟩ := List.mem_map.1 (hperm.subset h1)
    have hp : b.priority = item.priority := congrArg Prod.snd hbe
    have h0 : 0 ≤ item.priority := hp ▸ hnonneg b hb
    simp only [Function.comp, renderEntry, Item.entry, fmtD2_eq_zeroPadLeft _ h0]
  · intro c hc
    interval_cases c <;> decide
  · intro c hc
    have h2 := repr_length_two c hc
    have h0 : 2 - (Nat.repr c).length = 0 := by omega
    simp only [zeroPadLeft, h0]
    rfl

/-- C17, at the queue built from the text `"b a b"`. -/
theorem C17_rendering_witness :
    (∀ item ∈ GetFrequencyMap (fun m => m) "b a b", 0 ≤ item.priority)
      ∧ ∃ out, PrintTopNFrequentWords 5 (GetFrequencyMap (fun m => m) "b a b") = some out
        ∧ out.stdout = out.noticeLine ++ String.join (out.entries.map renderEntry) :=
  have h : ∀ item ∈ GetFrequencyMap (fun m => m) "b a b", 0 ≤ item.priority := by decide
  ⟨h, (C17_rendering 5 (GetFrequencyMap (fun m => m) "b a b") h).1⟩
